import Mathlib

/-!
Verification of the workload-identity subsystem (ClusterTrustBundle /
WorkloadCertificate) against its natural-language specification.

The Go sources are shallowly embedded: byte strings are modelled as
`List Nat` (each element a byte value), Go strings used only as opaque
identifiers are modelled as Lean `String`, fallible functions return
`Option` or `Except`, and the external collaborators of the code under
verification (authorizer, informer caches, crypto primitives, the
object-store write path) are passed in explicitly as function arguments or
oracle records, mirroring the call sites in the source.
-/

/-! ## Byte-string utilities

Go's `encoding/pem` and `encoding/base64` packages, which the repository
uses via `pem.Decode`, `pem.EncodeToMemory` and
`base64.StdEncoding.Decode`, are modelled here over `List Nat` byte
strings, following the algorithms of the Go standard library.
-/

/-- ASCII bytes of a Lean string literal (used to write the concrete byte
constants of the PEM format readably). All literals used are 7-bit ASCII. -/
def asciiStr (s : String) : List Nat :=
  s.data.map (fun c => c.toNat)

/-- Go `bytes.TrimRight(data, " \t")`: drop trailing space and tab bytes. -/
def trimRightST (l : List Nat) : List Nat :=
  ((l.reverse.dropWhile (fun c => c = 32 || c = 9)).reverse)

/-- Go `strings.TrimPrefix` / `bytes.TrimPrefix`: remove the leading
occurrence of the given pattern, or return the input unchanged when the
pattern is not a leading substring. -/
def trimPre (s pre : String) : String :=
  if pre.data.isPrefixOf s.data then ⟨s.data.drop pre.data.length⟩ else s

/-! ### Base64 (standard encoding with padding), as used by `encoding/pem` -/

/-- Base64 standard-alphabet character for a sextet value (0..63). -/
def b64char (n : Nat) : Nat :=
  if n < 26 then 65 + n
  else if n < 52 then 97 + (n - 26)
  else if n < 62 then 48 + (n - 52)
  else if n = 62 then 43
  else 47

/-- Inverse of the base64 standard alphabet; `none` on a byte outside the
alphabet (the padding byte 61 is also outside). -/
def b64charInv (c : Nat) : Option Nat :=
  if 65 ≤ c ∧ c ≤ 90 then some (c - 65)
  else if 97 ≤ c ∧ c ≤ 122 then some (c - 97 + 26)
  else if 48 ≤ c ∧ c ≤ 57 then some (c - 48 + 52)
  else if c = 43 then some 62
  else if c = 47 then some 63
  else none

/-- Base64-encode a byte string (standard encoding, with `=` padding),
processing input three bytes at a time. -/
def b64encode : List Nat → List Nat
  | [] => []
  | [a] => [b64char (a / 4), b64char ((a % 4) * 16), 61, 61]
  | [a, b] => [b64char (a / 4), b64char ((a % 4) * 16 + b / 16), b64char ((b % 16) * 4), 61]
  | a :: b :: c :: rest =>
      b64char (a / 4) :: b64char ((a % 4) * 16 + b / 16) ::
      b64char ((b % 16) * 4 + c / 64) :: b64char (c % 64) :: b64encode rest

/-- Base64-decode an already-whitespace-free character string, four
characters at a time; `=` padding may appear only at the very end. Returns
`none` on bad length, bad characters, or interior padding, like Go's
`base64.StdEncoding.Decode` (which is not strict about trailing bits). -/
def b64decodeRaw : List Nat → Option (List Nat)
  | [] => some []
  | c1 :: c2 :: c3 :: c4 :: rest =>
      match b64charInv c1, b64charInv c2 with
      | some s1, some s2 =>
          if c3 = 61 then
            if c4 = 61 ∧ rest = [] then some [s1 * 4 + s2 / 16] else none
          else
            match b64charInv c3 with
            | some s3 =>
                if c4 = 61 then
                  if rest = [] then some [s1 * 4 + s2 / 16, (s2 % 16) * 16 + s3 / 4] else none
                else
                  match b64charInv c4 with
                  | some s4 => do
                      let tail ← b64decodeRaw rest
                      pure ((s1 * 4 + s2 / 16) :: ((s2 % 16) * 16 + s3 / 4) ::
                            ((s3 % 4) * 64 + s4) :: tail)
                  | none => none
            | none => none
      | _, _ => none
  | _ => none

/-- Go's base64 decoder ignores CR and LF bytes anywhere in its input. -/
def b64decode (l : List Nat) : Option (List Nat) :=
  b64decodeRaw (l.filter (fun c => !(c = 10 || c = 13)))

/-! ### PEM line wrapping (64 columns, as written by `pem.Encode`) -/

/-- Structural worker for `chunk64`; the fuel bounds the number of
chunks and is immaterial whenever it is at least the input length. -/
def chunk64F : Nat → List Nat → List (List Nat)
  | 0, _ => []
  | fuel + 1, l => if l = [] then [] else l.take 64 :: chunk64F fuel (l.drop 64)

/-- Split a byte string into chunks of at most 64 bytes. -/
def chunk64 (l : List Nat) : List (List Nat) :=
  chunk64F l.length l

/-- Fuel irrelevance for `chunk64F`. -/
theorem chunk64F_congr : ∀ {f1 f2 : Nat} {l : List Nat}, l.length ≤ f1 →
    l.length ≤ f2 → chunk64F f1 l = chunk64F f2 l := by
  intro f1
  induction f1 with
  | zero =>
    intro f2 l h1 h2
    have : l = [] := List.length_eq_zero.mp (Nat.le_zero.mp h1)
    subst this
    cases f2 <;> simp [chunk64F]
  | succ n ih =>
    intro f2 l h1 h2
    by_cases hl : l = []
    · subst hl
      cases f2 <;> simp [chunk64F]
    · have hlen : 0 < l.length := List.length_pos.mpr hl
      cases f2 with
      | zero => omega
      | succ m =>
        simp only [chunk64F, if_neg hl]
        have hd : (l.drop 64).length ≤ n := by
          simp only [List.length_drop]
          omega
        have hd2 : (l.drop 64).length ≤ m := by
          simp only [List.length_drop]
          omega
        rw [ih hd hd2]

/-- One-step unfolding of `chunk64`. -/
theorem chunk64_eq (l : List Nat) :
    chunk64 l = if l = [] then [] else l.take 64 :: chunk64 (l.drop 64) := by
  by_cases hl : l = []
  · subst hl
    simp [chunk64, chunk64F]
  · have hlen : 0 < l.length := List.length_pos.mpr hl
    unfold chunk64
    cases hn : l.length with
    | zero => omega
    | succ n =>
      simp only [chunk64F, if_neg hl]
      congr 1
      apply chunk64F_congr
      · simp only [List.length_drop]
        omega
      · exact le_refl _

/-- Join lines, terminating every line (including the last) with LF,
as `pem.Encode` writes the base64 body. -/
def joinLines (ls : List (List Nat)) : List Nat :=
  (ls.map (fun l => l ++ [10])).flatten

/-- The base64 body of a PEM block: the encoding wrapped at 64 columns,
every line LF-terminated. Empty input yields no lines at all. -/
def wrapped64 (bs : List Nat) : List Nat :=
  joinLines (chunk64 bs)

/-- Go `pem.EncodeToMemory` for a block with the given type, no headers
and the given DER bytes:
`-----BEGIN T-----\n<wrapped base64>-----END T-----\n`. -/
def encodeToMemory (t bytes : List Nat) : List Nat :=
  asciiStr "-----BEGIN " ++ t ++ asciiStr "-----" ++ [10] ++
  wrapped64 (b64encode bytes) ++
  asciiStr "-----END " ++ t ++ asciiStr "-----" ++ [10]

/-- The `CERTIFICATE` PEM block type. -/
def certType : List Nat := asciiStr "CERTIFICATE"

/-! ### Go `encoding/pem` `Decode`, modelled over byte lists -/

/-- Split a byte string at its first LF: returns the bytes before it and
the bytes after it, or `none` when there is no LF. -/
def splitNL : List Nat → Option (List Nat × List Nat)
  | [] => none
  | c :: rest =>
      if c = 10 then some ([], rest)
      else (splitNL rest).map (fun p => (c :: p.1, p.2))

/-- Strip a single trailing CR byte (Go strips one CR before the LF). -/
def stripCR (l : List Nat) : List Nat :=
  if l.getLast? = some 13 then l.dropLast else l

/-- Go pem `getLine`: the first line with EOL and trailing space/tab
removed, plus the remaining data after the line terminator. -/
def getLine (data : List Nat) : List Nat × List Nat :=
  match splitNL data with
  | none => (trimRightST data, [])
  | some (l, r) => (trimRightST (stripCR l), r)

/-- Go `bytes.Cut(data, pat)` restricted to its third and second results:
the suffix of `data` after the first occurrence of `pat`, or `none` when
`pat` does not occur. -/
def cutAfter (pat : List Nat) : List Nat → Option (List Nat)
  | [] => if pat.isPrefixOf ([] : List Nat) then some [] else none
  | c :: rest =>
      if pat.isPrefixOf (c :: rest) then some ((c :: rest).drop pat.length)
      else cutAfter pat rest

/-- Go `bytes.Index(data, pat)`: index of the first occurrence of `pat`. -/
def indexOfPat (pat : List Nat) : List Nat → Option Nat
  | [] => if pat.isPrefixOf ([] : List Nat) then some 0 else none
  | c :: rest =>
      if pat.isPrefixOf (c :: rest) then some 0
      else (indexOfPat pat rest).map (· + 1)

/-- A decoded PEM block: type line, headers (key/value byte strings) and
the base64-decoded body bytes, mirroring Go's `pem.Block`. -/
structure PemBlock where
  type : List Nat
  headers : List (List Nat × List Nat)
  bytes : List Nat
deriving DecidableEq, Repr

/-- Byte constants of the PEM markers, as in Go's `encoding/pem`. -/
def pemStartTail : List Nat := asciiStr "-----BEGIN "

/-- Full begin marker including the leading LF. -/
def pemStartFull : List Nat := 10 :: pemStartTail

/-- Tail of the end marker (without the leading LF). -/
def pemEndTail : List Nat := asciiStr "-----END "

/-- Full end marker including the leading LF. -/
def pemEndFull : List Nat := 10 :: pemEndTail

/-- Marker used to end the type line and the end line. -/
def pemEol : List Nat := asciiStr "-----"

/-- Characterization of `splitNL`: a successful split decomposes the
input around its first LF. -/
theorem splitNL_eq_some : ∀ {data l r : List Nat}, splitNL data = some (l, r) →
    data = l ++ 10 :: r
  | [], _, _, h => by simp [splitNL] at h
  | c :: rest, l, r, h => by
      by_cases hc : c = 10
      · subst hc
        simp [splitNL] at h
        obtain ⟨h1, h2⟩ := h
        simp [← h1, ← h2]
      · simp only [splitNL, if_neg hc, Option.map_eq_some'] at h
        obtain ⟨⟨pl, pr⟩, hp, heq⟩ := h
        have hrec := splitNL_eq_some hp
        cases heq
        simp [hrec]

/-- Splitting a string whose first LF is explicit. -/
theorem splitNL_append {l r : List Nat} (hl : ∀ c ∈ l, c ≠ 10) :
    splitNL (l ++ 10 :: r) = some (l, r) := by
  induction l with
  | nil => simp [splitNL]
  | cons c cs ih =>
    have hc : c ≠ 10 := hl c (by simp)
    simp only [List.cons_append, splitNL, if_neg hc, List.append_eq]
    rw [ih (fun x hx => hl x (by simp [hx]))]
    rfl

/-- The remainder returned by `getLine` is shorter than a nonempty input. -/
theorem getLine_snd_lt {data : List Nat} (h : data ≠ []) :
    (getLine data).2.length < data.length := by
  unfold getLine
  cases hs : splitNL data with
  | none =>
    have : 0 < data.length := List.length_pos.mpr h
    simpa using this
  | some p =>
    obtain ⟨l, r⟩ := p
    have := splitNL_eq_some hs
    subst this
    simp
    omega

/-- The remainder returned by `getLine` is never longer than the input. -/
theorem getLine_snd_le (data : List Nat) :
    (getLine data).2.length ≤ data.length := by
  cases data with
  | nil => simp [getLine, splitNL, trimRightST]
  | cons c rest => exact Nat.le_of_lt (getLine_snd_lt (by simp))

/-- Go `bytes.Cut(line, colon)`: split a line at its first colon byte. -/
def splitAtColon : List Nat → Option (List Nat × List Nat)
  | [] => none
  | c :: cs =>
      if c = 58 then some ([], cs)
      else (splitAtColon cs).map (fun p => (c :: p.1, p.2))

/-- Structural worker for `headerLoop`; fuel is immaterial whenever it
exceeds the input length. -/
def headerLoopF : Nat → List Nat →
    Option (List (List Nat × List Nat) × List Nat)
  | 0, _ => none
  | fuel + 1, rest =>
    if rest = [] then none
    else
      let ln := getLine rest
      match splitAtColon ln.1 with
      | none => some ([], rest)
      | some kv =>
          match headerLoopF fuel ln.2 with
          | none => none
          | some hs => some ((trimRightST kv.1, trimRightST kv.2) :: hs.1, hs.2)

/-- Header-parsing loop of Go `pem.Decode`: consumes leading lines that
contain a colon, recording them as headers (Go additionally trims space
around the key and value; header content is never consulted by the code
under verification); stops, without consuming, at the first line without a
colon; fails if the data runs out first. -/
def headerLoop (rest : List Nat) :
    Option (List (List Nat × List Nat) × List Nat) :=
  headerLoopF rest.length rest

/-- Fuel irrelevance for `headerLoopF`. -/
theorem headerLoopF_congr : ∀ {f1 f2 : Nat} {rest : List Nat},
    rest.length ≤ f1 → rest.length ≤ f2 →
    headerLoopF f1 rest = headerLoopF f2 rest := by
  intro f1
  induction f1 with
  | zero =>
    intro f2 rest h1 h2
    have : rest = [] := List.length_eq_zero.mp (Nat.le_zero.mp h1)
    subst this
    cases f2 <;> simp [headerLoopF]
  | succ n ih =>
    intro f2 rest h1 h2
    by_cases hr : rest = []
    · subst hr
      cases f2 <;> simp [headerLoopF]
    · have hlen : 0 < rest.length := List.length_pos.mpr hr
      cases f2 with
      | zero => omega
      | succ m =>
        simp only [headerLoopF, if_neg hr]
        have hlt : (getLine rest).2.length < rest.length := getLine_snd_lt hr
        cases hc : splitAtColon (getLine rest).1 with
        | none => rfl
        | some kv => rw [ih (show (getLine rest).2.length ≤ n by omega)
            (show (getLine rest).2.length ≤ m by omega)]

/-- One-step unfolding of `headerLoop`. -/
theorem headerLoop_eq (rest : List Nat) :
    headerLoop rest =
      (if rest = [] then none
       else
         match splitAtColon (getLine rest).1 with
         | none => some ([], rest)
         | some kv =>
             match headerLoop (getLine rest).2 with
             | none => none
             | some hs =>
                 some ((trimRightST kv.1, trimRightST kv.2) :: hs.1, hs.2)) := by
  by_cases hr : rest = []
  · subst hr
    simp [headerLoop, headerLoopF]
  · have hlen : 0 < rest.length := List.length_pos.mpr hr
    unfold headerLoop
    cases hn : rest.length with
    | zero => omega
    | succ n =>
      simp only [headerLoopF, if_neg hr]
      have hlt : (getLine rest).2.length < rest.length := getLine_snd_lt hr
      rw [headerLoopF_congr (show (getLine rest).2.length ≤ n by omega)
        (le_refl ((getLine rest).2.length))]

/-- The remainder returned by `headerLoopF` is never longer than its
input. -/
theorem headerLoopF_snd_le : ∀ {fuel : Nat} {rest : List Nat}
    {hs : List (List Nat × List Nat)} {r : List Nat},
    headerLoopF fuel rest = some (hs, r) → r.length ≤ rest.length := by
  intro fuel
  induction fuel with
  | zero =>
    intro rest hs r h
    simp [headerLoopF] at h
  | succ n ih =>
    intro rest hs r h
    by_cases hr : rest = []
    · subst hr
      simp [headerLoopF] at h
    · simp only [headerLoopF, if_neg hr] at h
      cases hc : splitAtColon (getLine rest).1 with
      | none =>
        rw [hc] at h
        simp only [Option.some.injEq, Prod.mk.injEq] at h
        obtain ⟨-, hr2⟩ := h
        subst hr2
        exact le_refl _
      | some kv =>
        rw [hc] at h
        cases hrec : headerLoopF n (getLine rest).2 with
        | none =>
          rw [hrec] at h
          simp at h
        | some hs2 =>
          rw [hrec] at h
          simp only [Option.some.injEq, Prod.mk.injEq] at h
          obtain ⟨-, hr2⟩ := h
          subst hr2
          calc hs2.2.length ≤ (getLine rest).2.length := ih hrec
            _ ≤ rest.length := getLine_snd_le rest

/-- The remainder returned by `headerLoop` is never longer than its input. -/
theorem headerLoop_snd_le {rest : List Nat} {hs : List (List Nat × List Nat)}
    {r : List Nat} (h : headerLoop rest = some (hs, r)) : r.length ≤ rest.length :=
  headerLoopF_snd_le h

/-- A successful `cutAfter` with a nonempty pattern strictly shrinks. -/
theorem cutAfter_length_lt : ∀ {data after : List Nat} {pat : List Nat},
    pat ≠ [] → cutAfter pat data = some after → after.length < data.length
  | [], _, pat, hne, h => by
      simp [cutAfter, List.isPrefixOf_iff_prefix, List.prefix_nil, hne] at h
  | c :: rest, after, pat, hne, h => by
      by_cases hp : pat.isPrefixOf (c :: rest)
      · simp only [cutAfter, if_pos hp, Option.some.injEq] at h
        subst h
        have hlen : 0 < pat.length := List.length_pos.mpr hne
        simp only [List.length_drop]
        simp only [List.length_cons]
        omega
      · simp only [cutAfter, if_neg hp] at h
        have := cutAfter_length_lt hne h
        simp only [List.length_cons]
        omega

/-- First phase of Go `pem.Decode`: position the input just after the
next begin marker, accepting a marker without its leading LF only at the
very start of the data. -/
def advanceToBegin (rest : List Nat) : Option (List Nat) :=
  if pemStartTail.isPrefixOf rest then some (rest.drop pemStartTail.length)
  else cutAfter pemStartFull rest

/-- A successful `advanceToBegin` strictly shrinks the data. -/
theorem advanceToBegin_lt {rest rest1 : List Nat}
    (h : advanceToBegin rest = some rest1) : rest1.length < rest.length := by
  unfold advanceToBegin at h
  split at h
  · rename_i hp
    have hle : pemStartTail.length ≤ rest.length :=
      (List.isPrefixOf_iff_prefix.mp hp).length_le
    have h11 : pemStartTail.length = 11 := by rfl
    simp only [Option.some.injEq] at h
    subst h
    simp only [List.length_drop]
    omega
  · exact cutAfter_length_lt (by simp [pemStartFull]) h

/-- Structural worker for `pemDecode`; the fuel bounds the number of
retry iterations and is immaterial whenever it is at least the input
length. -/
def pemDecodeF : Nat → List Nat → Option (PemBlock × List Nat)
  | 0, _ => none
  | fuel + 1, rest =>
    match advanceToBegin rest with
    | none => none
    | some rest1 =>
      let tl := getLine rest1
      if pemEol.isSuffixOf tl.1 then
        let typ := tl.1.take (tl.1.length - pemEol.length)
        match headerLoop tl.2 with
        | none => none
        | some hsr =>
          let idx? : Option (Nat × Nat) :=
            if hsr.1 = [] ∧ pemEndTail.isPrefixOf hsr.2 then
              some (0, pemEndTail.length)
            else
              (indexOfPat pemEndFull hsr.2).map (fun i => (i, i + pemEndFull.length))
          match idx? with
          | none => pemDecodeF fuel hsr.2
          | some ei =>
            let endTrailer := hsr.2.drop ei.2
            let endTrailerLen := typ.length + pemEol.length
            if endTrailer.length < endTrailerLen then pemDecodeF fuel hsr.2
            else
              let restOfEndLine := endTrailer.drop endTrailerLen
              let endTrailerCut := endTrailer.take endTrailerLen
              if typ.isPrefixOf endTrailerCut ∧ pemEol.isSuffixOf endTrailerCut then
                if (getLine restOfEndLine).1 = [] then
                  match b64decode ((hsr.2.take ei.1).filter
                      (fun c => !(c = 32 || c = 9))) with
                  | none => pemDecodeF fuel hsr.2
                  | some bodyBytes =>
                      some ({ type := typ, headers := hsr.1, bytes := bodyBytes },
                            (getLine restOfEndLine).2)
                else pemDecodeF fuel hsr.2
              else pemDecodeF fuel hsr.2
      else
        pemDecodeF fuel tl.2

/-- Go `pem.Decode`, as the retry loop of the standard library: scan for a
begin marker; parse the type line, headers, end marker and end line;
base64-decode the body; on malformed candidate blocks resume scanning
after the already-consumed part; on success return the block and the data
after the end line. -/
def pemDecode (rest : List Nat) : Option (PemBlock × List Nat) :=
  pemDecodeF rest.length rest

/-- The retry arguments of one `pemDecodeF` iteration are strictly
shorter than the iteration's input. -/
theorem retryChain {rest rest1 : List Nat}
    (h1 : advanceToBegin rest = some rest1) {hsr : List (List Nat × List Nat) × List Nat}
    (hh : headerLoop (getLine rest1).2 = some hsr) : hsr.2.length < rest.length := by
  have a1 : hsr.2.length ≤ (getLine rest1).2.length := headerLoop_snd_le hh
  have a2 : (getLine rest1).2.length ≤ rest1.length := getLine_snd_le rest1
  have a3 : rest1.length < rest.length := advanceToBegin_lt h1
  omega

/-- Fuel irrelevance for `pemDecodeF`. -/
theorem pemDecodeF_congr : ∀ {f1 f2 : Nat} {rest : List Nat},
    rest.length ≤ f1 → rest.length ≤ f2 → pemDecodeF f1 rest = pemDecodeF f2 rest := by
  intro f1
  induction f1 with
  | zero =>
    intro f2 rest hle1 hle2
    have hrest : rest = [] := List.length_eq_zero.mp (Nat.le_zero.mp hle1)
    subst hrest
    cases f2 with
    | zero => rfl
    | succ m =>
      simp [pemDecodeF, advanceToBegin, pemStartTail, pemStartFull, asciiStr, cutAfter]
  | succ n ih =>
    intro f2 rest hle1 hle2
    cases f2 with
    | zero =>
      have hrest : rest = [] := List.length_eq_zero.mp (Nat.le_zero.mp hle2)
      subst hrest
      simp [pemDecodeF, advanceToBegin, pemStartTail, pemStartFull, asciiStr, cutAfter]
    | succ m =>
      simp only [pemDecodeF]
      cases h1 : advanceToBegin rest with
      | none => rfl
      | some rest1 =>
        simp only []
        split
        · cases hh : headerLoop (getLine rest1).2 with
          | none => rfl
          | some hsr =>
            simp only []
            have hchain : hsr.2.length < rest.length := retryChain h1 hh
            have hc1 : hsr.2.length ≤ n := by omega
            have hc2 : hsr.2.length ≤ m := by omega
            split
            · exact ih hc1 hc2
            · split
              · exact ih hc1 hc2
              · split
                · split
                  · split
                    · exact ih hc1 hc2
                    · rfl
                  · exact ih hc1 hc2
                · exact ih hc1 hc2
        · have a2 : (getLine rest1).2.length ≤ rest1.length := getLine_snd_le rest1
          have a3 : rest1.length < rest.length := advanceToBegin_lt h1
          exact ih (by omega) (by omega)

/-- One-step unfolding of `pemDecode` in terms of itself. -/
theorem pemDecodeF_eq_pemDecode {fuel : Nat} {rest : List Nat}
    (h : rest.length ≤ fuel) : pemDecodeF fuel rest = pemDecode rest :=
  pemDecodeF_congr h (le_refl _)

/-- The data returned by a successful `pemDecodeF` is strictly shorter
than the input: the decoder always consumes at least the begin marker. -/
theorem pemDecodeF_rest_lt : ∀ {fuel : Nat} {rest : List Nat} {b : PemBlock}
    {r : List Nat}, pemDecodeF fuel rest = some (b, r) → r.length < rest.length := by
  intro fuel
  induction fuel with
  | zero =>
    intro rest b r h
    simp [pemDecodeF] at h
  | succ n ih =>
    intro rest b r h
    simp only [pemDecodeF] at h
    split at h
    · exact absurd h (by simp)
    · rename_i rest1 h1
      split at h
      · split at h
        · exact absurd h (by simp)
        · rename_i hsr hh
          have hchain : hsr.2.length < rest.length := retryChain h1 hh
          split at h
          · exact lt_trans (ih h) hchain
          · rename_i ei hei
            split at h
            · exact lt_trans (ih h) hchain
            · split at h
              · split at h
                · split at h
                  · exact lt_trans (ih h) hchain
                  · simp only [Option.some.injEq, Prod.mk.injEq] at h
                    obtain ⟨-, hr⟩ := h
                    subst hr
                    have a0 := getLine_snd_le ((hsr.2.drop ei.2).drop
                      ((List.take ((getLine rest1).1.length - pemEol.length)
                        (getLine rest1).1).length + pemEol.length))
                    have a1 : ((hsr.2.drop ei.2).drop
                        ((List.take ((getLine rest1).1.length - pemEol.length)
                          (getLine rest1).1).length + pemEol.length)).length ≤
                        hsr.2.length := by
                      simp only [List.length_drop]
                      omega
                    omega
                · exact lt_trans (ih h) hchain
              · exact lt_trans (ih h) hchain
      · have a2 : (getLine rest1).2.length ≤ rest1.length := getLine_snd_le rest1
        have a3 : rest1.length < rest.length := advanceToBegin_lt h1
        exact lt_trans (ih h) (by omega)

/-- The data returned by a successful `pemDecode` is strictly shorter than
the input. -/
theorem pemDecode_rest_lt {rest : List Nat} {b : PemBlock} {r : List Nat}
    (h : pemDecode rest = some (b, r)) : r.length < rest.length :=
  pemDecodeF_rest_lt h

/-! ### Byte-lexicographic ordering and sorting (Go `sort.Strings`) -/

/-- Byte-lexicographic less-or-equal on byte strings, the order used by Go
`sort.Strings` on the string forms of the blocks. -/
def ble : List Nat → List Nat → Bool
  | [], _ => true
  | _ :: _, [] => false
  | a :: as, b :: bs => if a < b then true else if b < a then false else ble as bs

/-- Insertion into a `ble`-sorted list. -/
def insertLe (x : List Nat) : List (List Nat) → List (List Nat)
  | [] => [x]
  | y :: ys => if ble x y then x :: y :: ys else y :: insertLe x ys

/-- Insertion sort by `ble`. Go sorts the randomly-ordered key set of a
map; the sorted list of the distinct elements is independent of that
order, so any comparison sort models `sort.Strings` here. -/
def sortLe : List (List Nat) → List (List Nat)
  | [] => []
  | x :: xs => insertLe x (sortLe xs)

/-! ## `normalizePEMTrustAnchors`
(`pkg/registry/certificates/clustertrustbundle/strategy.go`) -/

/-- Structural worker for `collectCertBlocks`. -/
def collectCertBlocksF : Nat → List Nat → Option (List (List Nat))
  | 0, rest =>
      match pemDecode rest with
      | none => some []
      | some _ => none
  | fuel + 1, rest =>
      match pemDecode rest with
      | none => some []
      | some br =>
          if br.1.type ≠ certType then none
          else
            match collectCertBlocksF fuel br.2 with
            | none => none
            | some tail => some (encodeToMemory certType br.1.bytes :: tail)

/-- Decode loop of `normalizePEMTrustAnchors`: repeatedly `pem.Decode`;
fail on a block whose type is not `CERTIFICATE`; collect the canonical
re-encoding (same DER bytes, no headers) of every block, in decode
order. -/
def collectCertBlocks (rest : List Nat) : Option (List (List Nat)) :=
  collectCertBlocksF rest.length rest

/-- Fuel irrelevance for `collectCertBlocksF`. -/
theorem collectCertBlocksF_congr : ∀ {f1 f2 : Nat} {rest : List Nat},
    rest.length ≤ f1 → rest.length ≤ f2 →
    collectCertBlocksF f1 rest = collectCertBlocksF f2 rest := by
  intro f1
  induction f1 with
  | zero =>
    intro f2 rest h1 h2
    have hrest : rest = [] := List.length_eq_zero.mp (Nat.le_zero.mp h1)
    subst hrest
    cases f2 with
    | zero => rfl
    | succ m =>
      have hnone : pemDecode [] = none := by rfl
      simp [collectCertBlocksF, hnone]
  | succ n ih =>
    intro f2 rest h1 h2
    cases hd : pemDecode rest with
    | none =>
      cases f2 <;> simp [collectCertBlocksF, hd]
    | some br =>
      have hlt : br.2.length < rest.length := pemDecode_rest_lt hd
      cases f2 with
      | zero => omega
      | succ m =>
        simp only [collectCertBlocksF, hd]
        rw [ih (show br.2.length ≤ n by omega) (show br.2.length ≤ m by omega)]

/-- One-step unfolding of `collectCertBlocks`. -/
theorem collectCertBlocks_eq (rest : List Nat) :
    collectCertBlocks rest =
      (match pemDecode rest with
       | none => some []
       | some br =>
           if br.1.type ≠ certType then none
           else
             match collectCertBlocks br.2 with
             | none => none
             | some tail => some (encodeToMemory certType br.1.bytes :: tail)) := by
  unfold collectCertBlocks
  cases hd : pemDecode rest with
  | none =>
    cases hn : rest.length <;> simp [collectCertBlocksF, hd]
  | some br =>
    have hlt : br.2.length < rest.length := pemDecode_rest_lt hd
    cases hn : rest.length with
    | zero => omega
    | succ n =>
      simp only [collectCertBlocksF, hd]
      rw [collectCertBlocksF_congr (show br.2.length ≤ n by omega)
        (le_refl (br.2.length))]

/-- Go `normalizePEMTrustAnchors`: strip inter-block data and headers,
re-encode every block canonically, deduplicate (the Go map keyed by the
encoded string), sort by byte order, and join with single LF
separators. -/
def normalizePEMTrustAnchors (input : List Nat) : Option (List Nat) :=
  match collectCertBlocks input with
  | none => none
  | some blocks => some (List.intercalate [10] (sortLe blocks.dedup))

/-! ## Data model
(`staging/src/k8s.io/api/certificates/v1alpha1/types.go`)

Scalar Go strings that the verified code only compares or copies are
modelled as Lean `String`; PEM payloads handled byte-wise are `List Nat`;
`int64` generations are `Int`; `metav1.Time` values are `Int` unix
instants whose Go zero value is `0`. -/

/-- Condition of a WorkloadCertificate (`WorkloadCertificateCondition`).
The times are `none` when never set (the Go zero `metav1.Time`). -/
structure WCCondition where
  type : String
  status : String
  reason : String
  message : String
  observedGeneration : Int
  lastUpdateTime : Option Int
  lastTransitionTime : Option Int
deriving DecidableEq, Repr

/-- Condition type constants from types.go. -/
def WorkloadCertificateFailed : String := "Failed"

/-- Pending condition type constant from types.go. -/
def WorkloadCertificatePending : String := "Pending"

/-- Condition status constant `corev1.ConditionTrue`. -/
def ConditionTrue : String := "True"

/-- Status of a WorkloadCertificate (`WorkloadCertificateStatus`). The
issued certificate is a byte string (empty when unset). -/
structure WCStatus where
  conditions : List WCCondition
  certificate : List Nat
  certificateObservedGeneration : Int
  notBefore : Int
  notAfter : Int
  beginRefreshAt : Int
deriving DecidableEq, Repr

/-- Spec of a WorkloadCertificate (`WorkloadCertificateSpec`). -/
structure WCSpec where
  signerName : String
  serviceAccount : String
  pod : String
  podUID : String
  node : String
  requester : String
  publicKey : String
deriving DecidableEq, Repr

/-- A WorkloadCertificate object with the metadata fields the verified
code reads: namespace, name, generation and the annotation map (modelled
as an association list; only the private-key-file-hash key is used). -/
structure WorkloadCertificate where
  namespaceName : String
  name : String
  generation : Int
  annotations : List (String × String)
  spec : WCSpec
  status : WCStatus
deriving DecidableEq, Repr

/-- A ClusterTrustBundle object with the fields the verified code reads.
Label-selector matching is modelled as an opaque predicate over the
object supplied by the caller (`metav1.LabelSelectorAsSelector` and label
matching are external collaborators). -/
structure ClusterTrustBundle where
  name : String
  signerName : String
  trustBundle : List Nat
deriving DecidableEq, Repr

/-- Built-in signer name recognized by the controller (types.go). -/
def DefaultWorkloadCertificateSignerName : String :=
  "kubernetes.io/default-workload-certificate"

/-- Built-in signer name from `k8s.io/api/certificates/v1`. -/
def KubeAPIServerClientSignerName : String := "kubernetes.io/kube-apiserver-client"

/-! ## Status strategy for WorkloadCertificate
(`pkg/registry/certificates/workloadcertificate/strategy.go`) -/

/-- Go `statusStrategy.PrepareForUpdate`: an update through the status
subresource copies the old spec over the incoming object before storage,
so a status write can never change spec. -/
def statusPrepareForUpdate (new old : WorkloadCertificate) : WorkloadCertificate :=
  { new with spec := old.spec }

/-! ## Signing controller (`workloadcertificatesigner`)

External collaborators of the controller (CA material parsing, public key
parsing, x509 signing, the random serial, the clock, and the
`UpdateStatus` object-store write) are supplied as an oracle record whose
fields correspond one-to-one to the call sites in the Go source.
`cert.ParseCertsPEM`, `keyutil.ParsePrivateKeyPEM` and
`keyutil.ParsePublicKeysPEM` are `client-go` helpers outside this
repository: their results (a list of certificates, a key, a list of
public keys, or a parse failure) are oracle data. -/

/-- Opaque parsed CA certificate. -/
structure CACert where
  certId : Nat
deriving DecidableEq, Repr

/-- Opaque parsed public key. -/
structure PubKey where
  keyId : Nat
deriving DecidableEq, Repr

/-- Oracle inputs for one run of `issueKubeAPIServerClientCert` or
`issueDefaultWorkloadCertificate`. -/
structure SignEnv where
  parseCACerts : Option (List CACert)
  parseCAKeyOk : Bool
  parsePublicKeys : Option (List PubKey)
  signResult : Option (List Nat)
  updateStatusOk : Bool
  nowSeconds : Int
  serial : Nat
deriving Repr

/-- The condition-clearing loop shared by `setWCFailed` and
`setWCIssued`: drop every Failed and every Pending condition. -/
def clearFailedPending (conds : List WCCondition) : List WCCondition :=
  conds.filter (fun c =>
    !(c.type = WorkloadCertificateFailed) && !(c.type = WorkloadCertificatePending))

/-- Go `Controller.setWCFailed` as a status transform: clear Failed and
Pending conditions, then append a Failed=True condition carrying the
reason and message at the object's current generation. -/
def setWCFailedStatus (wc : WorkloadCertificate) (reason message : String) : WCStatus :=
  { wc.status with
    conditions := clearFailedPending wc.status.conditions ++
      [{ type := WorkloadCertificateFailed
         status := ConditionTrue
         observedGeneration := wc.generation
         reason := reason
         message := message
         lastUpdateTime := none
         lastTransitionTime := none }] }

/-- Go `Controller.setWCIssued` as a status transform: record the
certificate, the observed generation and the three timestamps, and clear
every Failed and Pending condition. -/
def setWCIssuedStatus (wc : WorkloadCertificate) (issuedPEM : List Nat)
    (notBefore notAfter beginRefreshAt : Int) : WCStatus :=
  { conditions := clearFailedPending wc.status.conditions
    certificate := issuedPEM
    certificateObservedGeneration := wc.generation
    notBefore := notBefore
    notAfter := notAfter
    beginRefreshAt := beginRefreshAt }

/-- Result of one issue attempt: the Go error result plus the status
value handed to `UpdateStatus`, when the code reached a status write. -/
structure IssueOutcome where
  result : Except String Unit
  statusWrite : Option WCStatus
deriving Repr

/-- The subset of Go `x509.Certificate` template fields the controller
populates. Fields a template builder does not assign keep Go zero values,
modelled as `none` for the validity instants. -/
structure X509Template where
  serialNumber : Nat
  subjectCommonName : String
  keyUsage : Nat
  extKeyUsage : List String
  basicConstraintsValid : Bool
  notBefore : Option Int
  notAfter : Option Int
deriving DecidableEq, Repr

/-- Go x509 key-usage bits `dataEncipherment | keyAgreement |
keyEncipherment` (8 + 16 + 4). -/
def usageDataEnciphermentKeyAgreementKeyEncipherment : Nat := 8 + 16 + 4

/-- Go `Controller.apiserverClientCertificateTemplate`. Note that the Go
function receives `notBefore` and `notAfter` but never assigns them to
the template, so the template keeps zero validity instants. -/
def apiserverClientCertificateTemplate (wc : WorkloadCertificate) (serial : Nat)
    (notBefore notAfter : Int) : X509Template :=
  { serialNumber := serial
    subjectCommonName :=
      "system:serviceaccount:" ++ wc.namespaceName ++ ":" ++ wc.spec.serviceAccount
    keyUsage := usageDataEnciphermentKeyAgreementKeyEncipherment
    extKeyUsage := ["clientAuth", "serverAuth"]
    basicConstraintsValid := true
    notBefore := none
    notAfter := none }

/-- Go `Controller.defaultWorkloadCertificateTemplate`: identical to the
apiserver-client template except that it does assign `NotBefore` and
`NotAfter`. -/
def defaultWorkloadCertificateTemplate (wc : WorkloadCertificate) (serial : Nat)
    (notBefore notAfter : Int) : X509Template :=
  { serialNumber := serial
    subjectCommonName :=
      "system:serviceaccount:" ++ wc.namespaceName ++ ":" ++ wc.spec.serviceAccount
    keyUsage := usageDataEnciphermentKeyAgreementKeyEncipherment
    extKeyUsage := ["clientAuth", "serverAuth"]
    basicConstraintsValid := true
    notBefore := some notBefore
    notAfter := some notAfter }

/-- Common issue flow of `issueKubeAPIServerClientCert` and
`issueDefaultWorkloadCertificate`; the two Go functions differ only in
the CA key pair they read and the template builder they call. Load and
parse CA material (errors propagate and cause a retry); parse the
public key (failure or a key count other than one marks the request
Failed with reason BadPublicKey and returns success); build the template;
sign (failure marks SigningFailure and returns success); on success write
certificate, observed generation and timestamps through `UpdateStatus`. -/
def issueWithTemplate
    (tmpl : WorkloadCertificate → Nat → Int → Int → X509Template)
    (env : SignEnv) (wc : WorkloadCertificate) : IssueOutcome :=
  match env.parseCACerts with
  | none => { result := Except.error "while reading CA certificate file", statusWrite := none }
  | some caCerts =>
    if caCerts.length ≠ 1 then
      { result := Except.error "cert count", statusWrite := none }
    else if !env.parseCAKeyOk then
      { result := Except.error "while reading CA key file", statusWrite := none }
    else
      match env.parsePublicKeys with
      | none =>
          let st := setWCFailedStatus wc "BadPublicKey" "Public key parse failure"
          if env.updateStatusOk then { result := Except.ok (), statusWrite := some st }
          else { result := Except.error "while marking WorkloadCertificate failed",
                 statusWrite := none }
      | some pubKeys =>
        if pubKeys.length ≠ 1 then
          let st := setWCFailedStatus wc "BadPublicKey" "Public key count"
          if env.updateStatusOk then { result := Except.ok (), statusWrite := some st }
          else { result := Except.error "while marking WorkloadCertificate failed",
                 statusWrite := none }
        else
          let notBefore := env.nowSeconds - 5 * 60
          let notAfter := notBefore + 24 * 60 * 60
          let beginRenewAt := notBefore + 18 * 60 * 60
          let _tmpl := tmpl wc env.serial notBefore notAfter
          match env.signResult with
          | none =>
              let st := setWCFailedStatus wc "SigningFailure" "Failed to sign certificate"
              if env.updateStatusOk then { result := Except.ok (), statusWrite := some st }
              else { result := Except.error "while marking WorkloadCertificate failed",
                     statusWrite := none }
          | some issuedDER =>
              let issuedPEM := encodeToMemory certType issuedDER
              let st := setWCIssuedStatus wc issuedPEM notBefore notAfter beginRenewAt
              if env.updateStatusOk then { result := Except.ok (), statusWrite := some st }
              else { result := Except.error "while setting WorkloadCertificate issued",
                     statusWrite := none }

/-- Go `Controller.issueKubeAPIServerClientCert`. -/
def issueKubeAPIServerClientCert (env : SignEnv) (wc : WorkloadCertificate) : IssueOutcome :=
  issueWithTemplate apiserverClientCertificateTemplate env wc

/-- Go `Controller.issueDefaultWorkloadCertificate`. -/
def issueDefaultWorkloadCertificate (env : SignEnv) (wc : WorkloadCertificate) : IssueOutcome :=
  issueWithTemplate defaultWorkloadCertificateTemplate env wc

/-- Go `Controller.handleWorkloadCertificate`: read the object from the
cache (absence is success), short-circuit when the certificate was issued
at the current generation, then dispatch on the signer name; unknown
signers are ignored. -/
def handleWorkloadCertificate (env : SignEnv)
    (cached : Option WorkloadCertificate) : IssueOutcome :=
  match cached with
  | none => { result := Except.ok (), statusWrite := none }
  | some wc =>
    if wc.status.certificate.length ≠ 0 ∧
        wc.status.certificateObservedGeneration = wc.generation then
      { result := Except.ok (), statusWrite := none }
    else if wc.spec.signerName = KubeAPIServerClientSignerName then
      issueKubeAPIServerClientCert env wc
    else if wc.spec.signerName = DefaultWorkloadCertificateSignerName then
      issueDefaultWorkloadCertificate env wc
    else
      { result := Except.ok (), statusWrite := none }

/-- Requeue decision of `processNextWorkloadCertificate`: an error result
re-enqueues the key with rate limiting, success forgets it. -/
def requeues (r : Except String Unit) : Bool :=
  match r with
  | Except.ok _ => false
  | Except.error _ => true

/-! ## Admission plugins -/

/-- Authorizer hook: `Authorized(principal, verb, resource, resourceName)`.
The attributes carry group/resource; only the resource name matters to
the verified code, so the authorizer is modelled over it. -/
def Authorizer : Type := String → String → String → String → Bool

/-- Modelled from the spec: `IsAuthorizedForSignerName` (defined in
`plugin/pkg/admission/certificates`, which is not part of the sources
under verification) asks the authorizer whether the principal holds the
given verb on the resource `signers` scoped by resource-name equal to the
signer name. -/
def isAuthorizedForSignerName (authz : Authorizer) (user verb signerName : String) : Bool :=
  authz user verb "signers" signerName

/-- Admission operation (`admission.Create` / `admission.Update`). -/
inductive AdmissionOp where
  | create
  | update
deriving DecidableEq, Repr

/-- Admission decision: pass, or forbidden with a message. -/
inductive AdmissionResult where
  | pass
  | forbidden (msg : String)
deriving DecidableEq, Repr

/-! ### ClusterTrustBundle entrusting plugin (`entrusting` package) -/

/-- Inputs of `entrusting.Plugin.Validate` drawn from
`admission.Attributes`: the group-resource of the request, operation,
principal name, the new object, and (for updates) the old object. -/
structure CTBAttributes where
  groupResource : String
  operation : AdmissionOp
  userName : String
  newBundle : ClusterTrustBundle
  oldBundle : Option ClusterTrustBundle
deriving Repr

/-- Go `entrusting.Plugin.Validate`: ignore other resources; on update
forbid signer-name changes; pass without an authorization check when the
(new) signer name is empty; otherwise require the `entrust` verb on
`signers/<signerName>`. -/
def entrustingValidate (authz : Authorizer) (a : CTBAttributes) : AdmissionResult :=
  if a.groupResource ≠ "clustertrustbundles" then AdmissionResult.pass
  else
    match a.operation, a.oldBundle with
    | AdmissionOp.update, none =>
        AdmissionResult.forbidden "expected type ClusterTrustBundle"
    | AdmissionOp.update, some oldBundle =>
        if oldBundle.signerName ≠ a.newBundle.signerName then
          AdmissionResult.forbidden "changing signerName is forbidden"
        else if a.newBundle.signerName = "" then AdmissionResult.pass
        else if !isAuthorizedForSignerName authz a.userName "entrust"
            a.newBundle.signerName then
          AdmissionResult.forbidden "user not permitted to entrust signerName"
        else AdmissionResult.pass
    | AdmissionOp.create, _ =>
        if a.newBundle.signerName = "" then AdmissionResult.pass
        else if !isAuthorizedForSignerName authz a.userName "entrust"
            a.newBundle.signerName then
          AdmissionResult.forbidden "user not permitted to entrust signerName"
        else AdmissionResult.pass

/-! ### WorkloadCertificate restriction plugin (`wcrestriction` package) -/

/-- The pod fields read by the plugin. -/
structure PodInfo where
  uid : String
  serviceAccountName : String
  nodeName : String
deriving DecidableEq, Repr

/-- The pod lister: namespace and name to the cached pod, `none` when the
pod does not exist (`IsNotFound`). -/
def PodLister : Type := String → String → Option PodInfo

/-- Inputs of `wcrestriction.Plugin.Validate` drawn from
`admission.Attributes`. -/
structure WCAttributes where
  groupResource : String
  subresource : String
  userName : String
  newWC : WorkloadCertificate
deriving Repr

/-- Go `wcrestriction.Plugin.Validate` with the feature gate enabled:
requester lockdown on the main resource, `sign` authority on the status
subresource, consistency of the object with the live pod, and the
node-binding check, which uses `strings.TrimPrefix` on the requester. -/
def wcValidate (authz : Authorizer) (podLister : PodLister) (a : WCAttributes) :
    AdmissionResult :=
  if a.groupResource ≠ "workloadcertificates" then AdmissionResult.pass
  else if a.subresource = "" ∧ a.userName ≠ a.newWC.spec.requester then
    AdmissionResult.forbidden "only the original requester may modify this WorkloadCertificate"
  else if a.subresource = "status" ∧
      !isAuthorizedForSignerName authz a.userName "sign" a.newWC.spec.signerName then
    AdmissionResult.forbidden "user not permitted to sign requests with signerName"
  else
    match podLister a.newWC.namespaceName a.newWC.spec.pod with
    | none => AdmissionResult.forbidden "the named pod does not exist in the cluster"
    | some pod =>
      if pod.uid ≠ a.newWC.spec.podUID then
        AdmissionResult.forbidden "pod UID mismatch"
      else if pod.serviceAccountName ≠ a.newWC.spec.serviceAccount then
        AdmissionResult.forbidden "pod service account mismatch"
      else if pod.nodeName ≠ a.newWC.spec.node then
        AdmissionResult.forbidden "pod node mismatch"
      else if trimPre a.newWC.spec.requester "system:node:" ≠ a.newWC.spec.node then
        AdmissionResult.forbidden "the requester is not related to the node"
      else AdmissionResult.pass

/-- Go `wcrestriction.Plugin.Admit` with the feature gate enabled: check
pod existence and UID, then overwrite the service account, node and
requester fields from the live pod and the authenticated principal. -/
def wcAdmit (podLister : PodLister) (a : WCAttributes) :
    AdmissionResult × WorkloadCertificate :=
  if a.groupResource ≠ "workloadcertificates" then (AdmissionResult.pass, a.newWC)
  else
    match podLister a.newWC.namespaceName a.newWC.spec.pod with
    | none => (AdmissionResult.forbidden "the named pod does not exist in the cluster", a.newWC)
    | some pod =>
      if pod.uid ≠ a.newWC.spec.podUID then
        (AdmissionResult.forbidden "pod UID mismatch", a.newWC)
      else
        (AdmissionResult.pass,
         { a.newWC with spec :=
            { a.newWC.spec with
              serviceAccount := pod.serviceAccountName
              node := pod.nodeName
              requester := a.userName } })

/-! ## ClusterTrustBundle storage strategy
(`pkg/registry/certificates/clustertrustbundle/strategy.go`) -/

/-- Field errors that `strategy.Validate` can emit, one constructor per
`field.Error` site in the source (plus the generic required-name error of
the metadata validator). -/
inductive CTBFieldError where
  | metadataNameRequired
  | signerNameInvalid
  | anchorsInvalidBlock
  | anchorsEmpty
deriving DecidableEq, Repr

/-- Go `noRestrictionsOnName` from strategy.go: the name-validation
function passed to the generic metadata validator; it accepts every
name. -/
def noRestrictionsOnName (_name : String) (_isGenerate : Bool) : List String := []

/-- Modelled from the spec: the generic object-metadata validator
(`apivalidation.ValidateObjectMeta`, outside the verified sources)
requires a name to be present and otherwise restricts the name only
through the supplied name-validation function; its remaining checks
concern metadata fields that are not part of this model. -/
def validateObjectMetaName (name : String)
    (nameFn : String → Bool → List String) : List CTBFieldError :=
  if name = "" then [CTBFieldError.metadataNameRequired]
  else (nameFn name false).map (fun _ => CTBFieldError.metadataNameRequired)

/-- Character allowed in the domain part of a signer name. -/
def isDNSChar (c : Char) : Bool :=
  c.isLower || c.isDigit || c = '-' || c = '.'

/-- Domain part validity: non-empty, DNS-compliant characters, starting
and ending alphanumeric. -/
def validDomain : List Char → Bool
  | [] => false
  | c :: rest =>
      (c.isLower || c.isDigit) && (c :: rest).all isDNSChar &&
      ((c :: rest).getLast?.elim false (fun d => d.isLower || d.isDigit))

/-- Split a signer name at its slash, requiring exactly one slash. -/
def splitSignerName : List Char → Option (List Char × List Char)
  | [] => none
  | c :: rest =>
      if c = '/' then
        if rest.contains '/' then none else some ([], rest)
      else (splitSignerName rest).map (fun p => (c :: p.1, p.2))

/-- Modelled from the spec: `certvalidation.ValidateSignerName` (outside
the verified sources) accepts a qualified identifier of the form
`<domain>/<path>` with a non-empty DNS-compliant domain and a non-empty
path. -/
def validSignerName (s : String) : Bool :=
  match splitSignerName s.data with
  | none => false
  | some parts => validDomain parts.1 && parts.2 ≠ []

/-- Go `strategy.Validate` for ClusterTrustBundle create (also reused on
update for the new object): generic metadata validation with
`noRestrictionsOnName`, signer-name syntax when the signer name is
non-empty, then normalization of the trust anchors — a normalization
failure is an invalid-block error, an empty normalized bundle is an
error, and otherwise the normalized text replaces the field. Returns the
error list and the (possibly normalized) object. -/
def ctbValidate (bundle : ClusterTrustBundle) :
    List CTBFieldError × ClusterTrustBundle :=
  let metaErrs := validateObjectMetaName bundle.name noRestrictionsOnName
  let signerErrs :=
    if bundle.signerName ≠ "" ∧ !validSignerName bundle.signerName then
      [CTBFieldError.signerNameInvalid]
    else []
  match normalizePEMTrustAnchors bundle.trustBundle with
  | none => (metaErrs ++ signerErrs ++ [CTBFieldError.anchorsInvalidBlock], bundle)
  | some normalized =>
      let bundle2 := { bundle with trustBundle := normalized }
      if normalized = [] then
        (metaErrs ++ signerErrs ++ [CTBFieldError.anchorsEmpty], bundle2)
      else (metaErrs ++ signerErrs, bundle2)

/-- The name-to-required-prefix translation of the specification: the
signer name with `/` translated to `:`, followed by `:` (a conforming
object name is this text followed by a non-empty suffix). -/
def colonizedSigner (signerName : String) : String :=
  ⟨signerName.data.map (fun c => if c = '/' then ':' else c)⟩ ++ ":"

/-! ## Kubelet trust-anchor manager
(`unnamed/part_004`, package `clustertrustbundle`) -/

/-- Cache state of the trust-anchor `InformerManager`: the synced flag of
the shared informer and the bundles in the lister's store. -/
structure TrustAnchorState where
  synced : Bool
  bundles : List ClusterTrustBundle

/-- Go `InformerManager.GetTrustAnchorsByName`: fail before the informer
has synced; otherwise return the stored bundle body. -/
def getTrustAnchorsByName (st : TrustAnchorState) (name : String) :
    Except String (List Nat) :=
  if !st.synced then Except.error "ClusterTrustBundle informer has not yet synced"
  else
    match (st.bundles.find? (fun b => b.name = name)) with
    | none => Except.error "while getting ClusterTrustBundle"
    | some b => Except.ok b.trustBundle

/-- Structural worker for `collectDERBlocks`. -/
def collectDERBlocksF : Nat → List Nat → List (List Nat)
  | 0, _ => []
  | fuel + 1, rest =>
      match pemDecode rest with
      | none => []
      | some br => br.1.bytes :: collectDERBlocksF fuel br.2

/-- The inner `pem.Decode` loop of `GetTrustAnchorsBySigner`: collect the
DER bytes of every PEM block (of any type) in order. -/
def collectDERBlocks (rest : List Nat) : List (List Nat) :=
  collectDERBlocksF rest.length rest

/-- Fuel irrelevance for `collectDERBlocksF`. -/
theorem collectDERBlocksF_congr : ∀ {f1 f2 : Nat} {rest : List Nat},
    rest.length ≤ f1 → rest.length ≤ f2 →
    collectDERBlocksF f1 rest = collectDERBlocksF f2 rest := by
  intro f1
  induction f1 with
  | zero =>
    intro f2 rest h1 h2
    have hrest : rest = [] := List.length_eq_zero.mp (Nat.le_zero.mp h1)
    subst hrest
    have hnone : pemDecode [] = none := by rfl
    cases f2 <;> simp [collectDERBlocksF, hnone]
  | succ n ih =>
    intro f2 rest h1 h2
    cases hd : pemDecode rest with
    | none =>
      cases f2 with
      | zero =>
        have hrest : rest = [] := List.length_eq_zero.mp (Nat.le_zero.mp h2)
        subst hrest
        have hnone : pemDecode [] = none := by rfl
        simp [collectDERBlocksF, hnone]
      | succ m => simp [collectDERBlocksF, hd]
    | some br =>
      have hlt : br.2.length < rest.length := pemDecode_rest_lt hd
      cases f2 with
      | zero => omega
      | succ m =>
        simp only [collectDERBlocksF, hd]
        rw [ih (show br.2.length ≤ n by omega) (show br.2.length ≤ m by omega)]

/-- One-step unfolding of `collectDERBlocks`. -/
theorem collectDERBlocks_eq (rest : List Nat) :
    collectDERBlocks rest =
      (match pemDecode rest with
       | none => []
       | some br => br.1.bytes :: collectDERBlocks br.2) := by
  unfold collectDERBlocks
  cases hd : pemDecode rest with
  | none =>
    cases hn : rest.length <;> simp [collectDERBlocksF, hd]
  | some br =>
    have hlt : br.2.length < rest.length := pemDecode_rest_lt hd
    cases hn : rest.length with
    | zero => omega
    | succ n =>
      simp only [collectDERBlocksF, hd]
      rw [collectDERBlocksF_congr (show br.2.length ≤ n by omega)
        (le_refl (br.2.length))]

/-- Go `InformerManager.GetTrustAnchorsBySigner`: fail before sync; list
the bundles matching the label selector (modelled as a predicate over the
object), keep those whose signer name equals the argument, collect the
DER bytes of all their PEM blocks into a set (the Go map keyed by the
bytes), sort the set by byte order, and concatenate the canonical
`CERTIFICATE` re-encoding of each element. -/
def getTrustAnchorsBySigner (st : TrustAnchorState) (signerName : String)
    (selector : ClusterTrustBundle → Bool) : Except String (List Nat) :=
  if !st.synced then Except.error "ClusterTrustBundle informer has not yet synced"
  else
    let listed := st.bundles.filter selector
    let matching := listed.filter (fun b => b.signerName = signerName)
    let ders := (matching.map (fun b => collectDERBlocks b.trustBundle)).flatten
    let sorted := sortLe ders.dedup
    Except.ok ((sorted.map (fun d => encodeToMemory certType d)).flatten)

/-! ## Kubelet workload-certificate manager
(`pkg/kubelet/workloadcertificate/workloadcertificate_manager.go`)

The manager's external collaborators (informer lister, key generation and
serialization, object-store create/update, the polling loop's eventual
outcome, the clock) are an oracle record. -/

/-- Annotation key carrying the hash of the private key file. -/
def privateKeyHashKey : String :=
  "workloadcertificates.kubelet.kubernetes.io/private-key-file-hash"

/-- Read an annotation; a missing key reads as the empty string, like a
Go map. -/
def getAnn (m : List (String × String)) (k : String) : String :=
  ((m.find? (fun p => p.1 = k)).map Prod.snd).getD ""

/-- Write an annotation. -/
def setAnn (m : List (String × String)) (k v : String) : List (String × String) :=
  (k, v) :: m.filter (fun p => p.1 ≠ k)

/-- Oracle inputs for one `GetWorkloadCertificate` call. -/
structure KubeletEnv where
  lister : String → String → Option WorkloadCertificate
  rekeyOk : Bool
  rekeyPrivPEM : String
  rekeyPubPEM : String
  rekeyHash : String
  createOk : Bool
  updateOk : Bool
  pollOutcome : Except String WorkloadCertificate
  nowSeconds : Int

/-- Tri-state issuance decision (`issuanceStatus`). -/
inductive IssuanceStatus where
  | issued
  | pending
  | failed
deriving DecidableEq, Repr

/-- Go `InformerManager.isWorkloadCertificateIssued`: issued when a
certificate is present at the current generation; else failed on a
Failed=True condition for the current generation; else pending
(explicitly via a Pending=True condition, or implicitly). -/
def isWorkloadCertificateIssued (wc : WorkloadCertificate) : IssuanceStatus × String :=
  if wc.status.certificate.length ≠ 0 ∧
      wc.status.certificateObservedGeneration = wc.generation then
    (IssuanceStatus.issued, "")
  else
    match wc.status.conditions.find? (fun c =>
        c.type = WorkloadCertificateFailed && c.status = ConditionTrue &&
        c.observedGeneration = wc.generation) with
    | some cond => (IssuanceStatus.failed,
        "the WorkloadCertificate failed issuance: " ++ cond.reason ++ ": " ++ cond.message)
    | none =>
      match wc.status.conditions.find? (fun c =>
          c.type = WorkloadCertificatePending && c.status = ConditionTrue &&
          c.observedGeneration = wc.generation) with
      | some _ => (IssuanceStatus.pending, "the WorkloadCertificate is explicitly pending")
      | none => (IssuanceStatus.pending, "the WorkloadCertificate is implicitly pending")

/-- Go `InformerManager.waitForWorkloadCertificateIssuance`: check the
cache once; return immediately on issued or failed; otherwise the result
of the 5-second polling loop (an oracle: issuance, terminal failure, or
context cancellation). -/
def waitForWorkloadCertificateIssuance (env : KubeletEnv) (ns name : String) :
    Except String WorkloadCertificate :=
  match env.lister ns name with
  | none => Except.error "while retrieving WorkloadCertificate from informer cache"
  | some wc =>
    match isWorkloadCertificateIssued wc with
    | (IssuanceStatus.issued, _) => Except.ok wc
    | (IssuanceStatus.failed, msg) => Except.error msg
    | (IssuanceStatus.pending, _) => env.pollOutcome

/-- Go `InformerManager.rekeyWorkloadCertificate`: generate a fresh P-256
key pair (oracle), record `base64(sha-512/256(privateKeyPEM))` in the
private-key-file-hash annotation, store the public key PEM in the spec,
and return the private key PEM. -/
def rekeyWorkloadCertificate (env : KubeletEnv) (wc : WorkloadCertificate) :
    Option (String × WorkloadCertificate) :=
  if !env.rekeyOk then none
  else some (env.rekeyPrivPEM,
    { wc with
      annotations := setAnn wc.annotations privateKeyHashKey env.rekeyHash
      spec := { wc.spec with publicKey := env.rekeyPubPEM } })

/-- Outcome of `GetWorkloadCertificate`: the Go results (private key PEM,
certificate PEM) or an error, plus whether the call submitted a Create or
an Update to the object store. -/
structure GWCOutcome where
  result : Except String (String × List Nat)
  didCreate : Bool
  didUpdate : Bool
deriving Repr

/-- Go `InformerManager.GetWorkloadCertificate`. The name is the
deterministic `kubelet-<pod>-<volume>-<sourceIndex>`. A cache miss
creates a freshly keyed request and awaits issuance. On a hit, the
private-key-file-hash comparison at source lines 109-111 has an empty
body (its re-key action is an unimplemented TODO in the source), so the
flow continues to the refresh check: past `beginRefreshAt` the manager
re-keys and updates; otherwise it awaits issuance and returns an empty
private key with the cached certificate. -/
def getWorkloadCertificate (env : KubeletEnv) (signerName ns podName podUID
    volumeName : String) (sourceIndex : Nat) (keyFileHash : String) : GWCOutcome :=
  let wcName := "kubelet-" ++ podName ++ "-" ++ volumeName ++ "-" ++ toString sourceIndex
  match env.lister ns wcName with
  | none =>
    let wc0 : WorkloadCertificate :=
      { namespaceName := ns
        name := wcName
        generation := 0
        annotations := []
        spec :=
          { signerName := signerName
            pod := podName
            podUID := podUID
            serviceAccount := ""
            node := ""
            requester := ""
            publicKey := "" }
        status :=
          { conditions := []
            certificate := []
            certificateObservedGeneration := 0
            notBefore := 0
            notAfter := 0
            beginRefreshAt := 0 } }
    match rekeyWorkloadCertificate env wc0 with
    | none =>
        { result := Except.error "while initially keying WorkloadCertificate"
          didCreate := false, didUpdate := false }
    | some pk =>
      if !env.createOk then
        { result := Except.error "while creating WorkloadCertificate"
          didCreate := true, didUpdate := false }
      else
        match waitForWorkloadCertificateIssuance env ns wcName with
        | Except.error e =>
            { result := Except.error ("while waiting for WorkloadCertificate to be issued: " ++ e)
              didCreate := true, didUpdate := false }
        | Except.ok wcIssued =>
            { result := Except.ok (pk.1, wcIssued.status.certificate)
              didCreate := true, didUpdate := false }
  | some wc =>
    -- Source lines 109-111: `if annotation != keyFileHash` has an empty
    -- body (TODO); `keyFileHash` is otherwise unused.
    if env.nowSeconds > wc.status.beginRefreshAt then
      match rekeyWorkloadCertificate env wc with
      | none =>
          { result := Except.error "while rekeying WorkloadCertificate"
            didCreate := false, didUpdate := false }
      | some pk =>
        if !env.updateOk then
          { result := Except.error "while creating WorkloadCertificate"
            didCreate := false, didUpdate := true }
        else
          match waitForWorkloadCertificateIssuance env ns wcName with
          | Except.error e =>
              { result := Except.error ("while waiting for WorkloadCertificate to be issued: " ++ e)
                didCreate := false, didUpdate := true }
          | Except.ok newWC =>
              { result := Except.ok (pk.1, newWC.status.certificate)
                didCreate := false, didUpdate := true }
    else
      match waitForWorkloadCertificateIssuance env ns wcName with
      | Except.error e =>
          { result := Except.error ("while waiting for WorkloadCertificate to be issued: " ++ e)
            didCreate := false, didUpdate := false }
      | Except.ok wc2 =>
          { result := Except.ok ("", wc2.status.certificate)
            didCreate := false, didUpdate := false }

/-! ## Claim theorems -/

/-- C9: For every update made through the status subresource of a
WorkloadCertificate, the stored object's spec after
`statusStrategy.PrepareForUpdate` equals the spec of the old object: a
status write never modifies any spec field. -/
theorem statusPrepareForUpdate_spec_unchanged (new old : WorkloadCertificate) :
    (statusPrepareForUpdate new old).spec = old.spec := rfl

/-- C10: After every status write performed by the signing controller,
the conditions list contains no Pending condition and at most one Failed
condition; a successful issuance leaves zero Failed and zero Pending
conditions. -/
theorem controller_status_writes_conditions_invariant
    (wc : WorkloadCertificate) (reason message : String) (issuedPEM : List Nat)
    (notBefore notAfter beginRefreshAt : Int) :
    ((setWCFailedStatus wc reason message).conditions.countP
        (fun c => c.type = WorkloadCertificatePending) = 0 ∧
      (setWCFailedStatus wc reason message).conditions.countP
        (fun c => c.type = WorkloadCertificateFailed) = 1) ∧
    ((setWCIssuedStatus wc issuedPEM notBefore notAfter beginRefreshAt).conditions.countP
        (fun c => c.type = WorkloadCertificatePending) = 0 ∧
      (setWCIssuedStatus wc issuedPEM notBefore notAfter beginRefreshAt).conditions.countP
        (fun c => c.type = WorkloadCertificateFailed) = 0) := by
  have hcleared : ∀ (p : WCCondition → Bool),
      (∀ c, p c = true → c.type = WorkloadCertificateFailed ∨
        c.type = WorkloadCertificatePending) →
      (clearFailedPending wc.status.conditions).countP p = 0 := by
    intro p hp
    rw [List.countP_eq_zero]
    intro c hc
    simp only [clearFailedPending, List.mem_filter] at hc
    obtain ⟨-, hkeep⟩ := hc
    simp only [Bool.and_eq_true, Bool.not_eq_eq_eq_not, Bool.not_true,
      decide_eq_false_iff_not] at hkeep
    intro hpc
    rcases hp c hpc with h | h
    · exact hkeep.1 h
    · exact hkeep.2 h
  refine ⟨⟨?_, ?_⟩, ?_, ?_⟩
  · simp only [setWCFailedStatus, List.countP_append]
    rw [hcleared _ (fun c hc => Or.inr (by simpa using hc))]
    simp [WorkloadCertificatePending, WorkloadCertificateFailed, List.countP_cons]
  · simp only [setWCFailedStatus, List.countP_append]
    rw [hcleared _ (fun c hc => Or.inl (by simpa using hc))]
    simp [WorkloadCertificateFailed, List.countP_cons]
  · exact hcleared _ (fun c hc => Or.inr (by simpa using hc))
  · exact hcleared _ (fun c hc => Or.inl (by simpa using hc))

/-- A concrete WorkloadCertificate used in closed evaluations. -/
def wcSample : WorkloadCertificate :=
  { namespaceName := "ns1"
    name := "kubelet-p1-vol-0"
    generation := 3
    annotations := []
    spec :=
      { signerName := "kubernetes.io/kube-apiserver-client"
        serviceAccount := "sa1"
        pod := "p1"
        podUID := "u1"
        node := "n1"
        requester := "system:node:n1"
        publicKey := "PK" }
    status :=
      { conditions := []
        certificate := []
        certificateObservedGeneration := 0
        notBefore := 0
        notAfter := 0
        beginRefreshAt := 0 } }

/-- An oracle under which CA material loads cleanly, the public key
parses as exactly one key, and signing and the status write succeed. -/
def signEnvHappy : SignEnv :=
  { parseCACerts := some [{ certId := 0 }]
    parseCAKeyOk := true
    parsePublicKeys := some [{ keyId := 1 }]
    signResult := some [1, 2, 3]
    updateStatusOk := true
    nowSeconds := 1000
    serial := 7 }

/-- C4: the signing controller's template for the
kubernetes.io/kube-apiserver-client signer carries no validity interval —
`apiserverClientCertificateTemplate` receives `notBefore`/`notAfter` but
never assigns them — while the template for
kubernetes.io/default-workload-certificate does, and the status written
after an apiserver-client issuance nevertheless records
`notBefore = now - 5 min`, contradicting the zero validity embedded in
the certificate itself. -/
theorem apiserverClientTemplate_zero_validity :
    (apiserverClientCertificateTemplate wcSample 7 700 87100).notBefore = none ∧
    (apiserverClientCertificateTemplate wcSample 7 700 87100).notAfter = none ∧
    (defaultWorkloadCertificateTemplate wcSample 7 700 87100).notBefore = some 700 ∧
    (defaultWorkloadCertificateTemplate wcSample 7 700 87100).notAfter = some 87100 ∧
    ∃ st, (issueKubeAPIServerClientCert signEnvHappy wcSample).statusWrite = some st ∧
      st.notBefore = 1000 - 5 * 60 ∧ st.notAfter = 1000 - 5 * 60 + 24 * 60 * 60 := by
  refine ⟨rfl, rfl, rfl, rfl, ?_⟩
  exact ⟨_, rfl, rfl, rfl⟩

/-- An authorizer granting exactly the verb `attest` on
`signers/example.com/foo` to the principal alice. -/
def authzAttestOnly : Authorizer := fun u v r n =>
  u = "alice" && v = "attest" && r = "signers" && n = "example.com/foo"

/-- Attributes of a create of a ClusterTrustBundle with a non-empty
signer name by alice. -/
def ctbCreateAttrs : CTBAttributes :=
  { groupResource := "clustertrustbundles"
    operation := AdmissionOp.create
    userName := "alice"
    newBundle :=
      { name := "example.com:foo:bundle"
        signerName := "example.com/foo"
        trustBundle := [] }
    oldBundle := none }

/-- C3: the entrusting admission stage checks the verb `entrust`, not the
verb `attest` documented for the API: a principal holding exactly
`attest` on `signers/<signerName>` is forbidden from creating the bundle,
while the same request passes for a principal holding `entrust`. -/
theorem entrustingValidate_requires_entrust_verb :
    isAuthorizedForSignerName authzAttestOnly "alice" "attest" "example.com/foo" = true ∧
    entrustingValidate authzAttestOnly ctbCreateAttrs =
      AdmissionResult.forbidden "user not permitted to entrust signerName" ∧
    entrustingValidate (fun u v r n =>
        u = "alice" && v = "entrust" && r = "signers" && n = "example.com/foo")
      ctbCreateAttrs = AdmissionResult.pass := by
  refine ⟨rfl, ?_, ?_⟩ <;> decide

/-- A found request whose private-key-file-hash annotation is AAA and
whose certificate is issued at the current generation, not yet due for
refresh. -/
def wcFoundHashed : WorkloadCertificate :=
  { namespaceName := "ns1"
    name := "kubelet-p1-vol-0"
    generation := 3
    annotations := [(privateKeyHashKey, "AAA")]
    spec :=
      { signerName := "kubernetes.io/default-workload-certificate"
        serviceAccount := "sa1"
        pod := "p1"
        podUID := "u1"
        node := "n1"
        requester := "system:node:n1"
        publicKey := "PK" }
    status :=
      { conditions := []
        certificate := [9]
        certificateObservedGeneration := 3
        notBefore := 0
        notAfter := 90000
        beginRefreshAt := 1000 } }

/-- Oracle for the hash-mismatch scenario: the cache holds
`wcFoundHashed` and the clock has not reached `beginRefreshAt`. -/
def kubeletEnvHashMismatch : KubeletEnv :=
  { lister := fun ns n =>
      if ns = "ns1" && n = "kubelet-p1-vol-0" then some wcFoundHashed else none
    rekeyOk := true
    rekeyPrivPEM := "NEWPRIV"
    rekeyPubPEM := "NEWPUB"
    rekeyHash := "NEWHASH"
    createOk := true
    updateOk := true
    pollOutcome := Except.error "context cancelled"
    nowSeconds := 500 }

/-- C7: `GetWorkloadCertificate` does not re-key when the caller's key
file hash differs from the stored annotation: with annotation AAA and
caller hash BBB (and refresh not yet due) the manager neither creates nor
updates anything and returns the cached certificate with an empty private
key, because the hash-mismatch branch in the source has an empty TODO
body. -/
theorem getWorkloadCertificate_no_rekey_on_hash_mismatch :
    getAnn wcFoundHashed.annotations privateKeyHashKey ≠ "BBB" ∧
    getWorkloadCertificate kubeletEnvHashMismatch
        "kubernetes.io/default-workload-certificate" "ns1" "p1" "u1" "vol" 0 "BBB" =
      { result := Except.ok ("", [9]), didCreate := false, didUpdate := false } := by
  refine ⟨by decide, ?_⟩
  rfl

/-- Evaluation of the shared issue flow on a bad public key. -/
theorem issueWithTemplate_badkey
    (tmpl : WorkloadCertificate → Nat → Int → Int → X509Template)
    (env : SignEnv) (wc : WorkloadCertificate) (caCerts : List CACert)
    (hca : env.parseCACerts = some caCerts) (hone : caCerts.length = 1)
    (hkey : env.parseCAKeyOk = true) (hwrite : env.updateStatusOk = true) :
    (env.parsePublicKeys = none →
      issueWithTemplate tmpl env wc =
        { result := Except.ok ()
          statusWrite := some (setWCFailedStatus wc "BadPublicKey"
            "Public key parse failure") }) ∧
    (∀ ks, env.parsePublicKeys = some ks → ks.length ≠ 1 →
      issueWithTemplate tmpl env wc =
        { result := Except.ok ()
          statusWrite := some (setWCFailedStatus wc "BadPublicKey"
            "Public key count") }) := by
  constructor
  · intro hnone
    unfold issueWithTemplate
    rw [hca, hnone]
    simp [hone, hkey, hwrite]
  · intro ks hks hlen
    unfold issueWithTemplate
    rw [hca, hks]
    simp [hone, hkey, hwrite, hlen]

/-- The status written by `setWCFailedStatus` satisfies the Failed
properties asserted by the specification. -/
theorem setWCFailedStatus_props (wc : WorkloadCertificate) (reason msg : String) :
    (setWCFailedStatus wc reason msg).certificate = wc.status.certificate ∧
    (setWCFailedStatus wc reason msg).certificateObservedGeneration =
      wc.status.certificateObservedGeneration ∧
    (setWCFailedStatus wc reason msg).conditions.countP
      (fun c => c.type = WorkloadCertificateFailed) = 1 ∧
    ∃ c, c ∈ (setWCFailedStatus wc reason msg).conditions ∧
      c.type = WorkloadCertificateFailed ∧ c.status = ConditionTrue ∧
      c.reason = reason ∧ c.observedGeneration = wc.generation := by
  refine ⟨rfl, rfl, ?_, ?_⟩
  · simp only [setWCFailedStatus, List.countP_append]
    have hz : (clearFailedPending wc.status.conditions).countP
        (fun c => c.type = WorkloadCertificateFailed) = 0 := by
      rw [List.countP_eq_zero]
      intro c hc
      simp only [clearFailedPending, List.mem_filter] at hc
      obtain ⟨-, hkeep⟩ := hc
      simp only [Bool.and_eq_true, Bool.not_eq_eq_eq_not, Bool.not_true,
        decide_eq_false_iff_not] at hkeep
      simpa using hkeep.1
    rw [hz]
    simp [List.countP_cons]
  · refine ⟨{ type := WorkloadCertificateFailed, status := ConditionTrue
              reason := reason, message := msg
              observedGeneration := wc.generation
              lastUpdateTime := none, lastTransitionTime := none }, ?_, rfl, rfl, rfl, rfl⟩
    exact List.mem_append_right _ (by simp)

/-- C5: when CA material loads cleanly but the request's public key fails
to parse or contains a number of keys different from one, both built-in
signer paths write a Failed condition with status True, reason
BadPublicKey and observedGeneration equal to the object's current
generation, leave the certificate untouched, and return success so the
key is not requeued. -/
theorem issue_badPublicKey_terminal (env : SignEnv) (wc : WorkloadCertificate)
    (caCerts : List CACert)
    (hca : env.parseCACerts = some caCerts) (hone : caCerts.length = 1)
    (hkey : env.parseCAKeyOk = true)
    (hbad : env.parsePublicKeys = none ∨
      ∃ ks, env.parsePublicKeys = some ks ∧ ks.length ≠ 1)
    (hwrite : env.updateStatusOk = true) :
    issueKubeAPIServerClientCert env wc = issueDefaultWorkloadCertificate env wc ∧
    (issueDefaultWorkloadCertificate env wc).result = Except.ok () ∧
    requeues (issueDefaultWorkloadCertificate env wc).result = false ∧
    ∃ st, (issueDefaultWorkloadCertificate env wc).statusWrite = some st ∧
      st.certificate = wc.status.certificate ∧
      st.certificateObservedGeneration = wc.status.certificateObservedGeneration ∧
      st.conditions.countP (fun c => c.type = WorkloadCertificateFailed) = 1 ∧
      ∃ c, c ∈ st.conditions ∧ c.type = WorkloadCertificateFailed ∧
        c.status = ConditionTrue ∧ c.reason = "BadPublicKey" ∧
        c.observedGeneration = wc.generation := by
  have hA := issueWithTemplate_badkey apiserverClientCertificateTemplate env wc
    caCerts hca hone hkey hwrite
  have hD := issueWithTemplate_badkey defaultWorkloadCertificateTemplate env wc
    caCerts hca hone hkey hwrite
  rcases hbad with hnone | ⟨ks, hks, hlen⟩
  · have heA := hA.1 hnone
    have heD := hD.1 hnone
    unfold issueKubeAPIServerClientCert issueDefaultWorkloadCertificate
    rw [heA, heD]
    obtain ⟨p1, p2, p3, c, hc⟩ := setWCFailedStatus_props wc "BadPublicKey"
      "Public key parse failure"
    exact ⟨rfl, rfl, rfl, _, rfl, p1, p2, p3, c, hc⟩
  · have heA := hA.2 ks hks hlen
    have heD := hD.2 ks hks hlen
    unfold issueKubeAPIServerClientCert issueDefaultWorkloadCertificate
    rw [heA, heD]
    obtain ⟨p1, p2, p3, c, hc⟩ := setWCFailedStatus_props wc "BadPublicKey"
      "Public key count"
    exact ⟨rfl, rfl, rfl, _, rfl, p1, p2, p3, c, hc⟩

/-- Witness for C5 at a concrete oracle: a public key that parses to two
keys is marked Failed/BadPublicKey and not retried. -/
theorem issue_badPublicKey_terminal_witness :
    let env : SignEnv :=
      { parseCACerts := some [{ certId := 0 }]
        parseCAKeyOk := true
        parsePublicKeys := some [{ keyId := 1 }, { keyId := 2 }]
        signResult := none
        updateStatusOk := true
        nowSeconds := 1000
        serial := 7 }
    (issueDefaultWorkloadCertificate env wcSample).result = Except.ok () ∧
      requeues (issueDefaultWorkloadCertificate env wcSample).result = false ∧
      ∃ st, (issueDefaultWorkloadCertificate env wcSample).statusWrite = some st ∧
        ∃ c, c ∈ st.conditions ∧ c.type = WorkloadCertificateFailed ∧
          c.status = ConditionTrue ∧ c.reason = "BadPublicKey" ∧
          c.observedGeneration = wcSample.generation := by
  intro env
  obtain ⟨-, hres, hreq, st, hst, -, -, -, c, hc⟩ :=
    issue_badPublicKey_terminal env wcSample [{ certId := 0 }] rfl rfl rfl
      (Or.inr ⟨[{ keyId := 1 }, { keyId := 2 }], rfl, by decide⟩) rfl
  exact ⟨hres, hreq, st, hst, c, hc⟩

/-- A pod cache holding pod ns1/p1 with UID u1, service account sa1, on
node n1. -/
def podListerSample : PodLister := fun ns n =>
  if ns = "ns1" && n = "p1" then
    some { uid := "u1", serviceAccountName := "sa1", nodeName := "n1" }
  else none

/-- Main-resource admission attributes whose requester is the bare node
name n1 (no system:node: marker), submitted by the principal n1. -/
def wcAttrsBareNode : WCAttributes :=
  { groupResource := "workloadcertificates"
    subresource := ""
    userName := "n1"
    newWC :=
      { namespaceName := "ns1"
        name := "kubelet-p1-vol-0"
        generation := 1
        annotations := []
        spec :=
          { signerName := "kubernetes.io/default-workload-certificate"
            serviceAccount := "sa1"
            pod := "p1"
            podUID := "u1"
            node := "n1"
            requester := "n1"
            publicKey := "PK" }
        status :=
          { conditions := []
            certificate := []
            certificateObservedGeneration := 0
            notBefore := 0
            notAfter := 0
            beginRefreshAt := 0 } } }

/-- C1 counterexample: the workload-restriction validator accepts a
main-resource request whose requester is the bare node name (not
`system:node:` followed by the node), because `strings.TrimPrefix` leaves
a string without the marker unchanged. -/
theorem wcValidate_accepts_unprefixed_requester :
    wcValidate (fun _ _ _ _ => false) podListerSample wcAttrsBareNode =
      AdmissionResult.pass ∧
    wcAttrsBareNode.newWC.spec.requester ≠
      "system:node:" ++ wcAttrsBareNode.newWC.spec.node := by
  constructor
  · rfl
  · decide

/-- C1 (amended): every admission call on WorkloadCertificates that the
workload-restriction validator accepts satisfies the `TrimPrefix`
relation the code actually checks: stripping an optional leading
`system:node:` from the requester yields exactly the node name (so the
requester is either `system:node:<node>`, or the bare node name itself
when it does not start with the marker); any object violating that
relation is forbidden. -/
theorem wcValidate_ok_requester_trim_eq_node (authz : Authorizer)
    (lister : PodLister) (a : WCAttributes)
    (hres : a.groupResource = "workloadcertificates")
    (hok : wcValidate authz lister a = AdmissionResult.pass) :
    trimPre a.newWC.spec.requester "system:node:" = a.newWC.spec.node := by
  unfold wcValidate at hok
  rw [if_neg (by simp [hres])] at hok
  split at hok
  · simp at hok
  · split at hok
    · simp at hok
    · split at hok
      · simp at hok
      · rename_i pod hpod
        split at hok
        · simp at hok
        · split at hok
          · simp at hok
          · split at hok
            · simp at hok
            · split at hok
              · simp at hok
              · rename_i htrim
                exact not_ne_iff.mp htrim

/-- Witness for C1's amended theorem at the bare-node-requester input. -/
theorem wcValidate_ok_requester_trim_eq_node_witness :
    wcAttrsBareNode.groupResource = "workloadcertificates" ∧
    wcValidate (fun _ _ _ _ => false) podListerSample wcAttrsBareNode =
      AdmissionResult.pass ∧
    trimPre wcAttrsBareNode.newWC.spec.requester "system:node:" =
      wcAttrsBareNode.newWC.spec.node :=
  ⟨rfl, rfl,
    wcValidate_ok_requester_trim_eq_node (fun _ _ _ _ => false) podListerSample
      wcAttrsBareNode rfl rfl⟩

/-- A bundle whose name is unrelated to its signer name, with one valid
certificate block. -/
def tbSample : ClusterTrustBundle :=
  { name := "not-matching"
    signerName := "example.com/foo"
    trustBundle := encodeToMemory certType [1, 2, 3] }

/-- C2 counterexample: create validation accepts a ClusterTrustBundle
whose name does not begin with the prefix derived from its signer name
(slash translated to colon, followed by a colon): the strategy passes
`noRestrictionsOnName` to the metadata validator and checks no
name-prefix rule at all. -/
theorem ctbValidate_accepts_name_unrelated_to_signer :
    (ctbValidate tbSample).1 = [] ∧
    (colonizedSigner tbSample.signerName).data.isPrefixOf tbSample.name.data = false := by
  constructor
  · decide
  · decide

/-- C2 (amended): create validation checks signer-name syntax (when
non-empty) and trust-anchor normalization only; it imposes no
relationship between the object name and the signer name — the error
list is unchanged under any replacement of a (present) object name. -/
theorem ctbValidate_errors_ignore_name (bundle : ClusterTrustBundle)
    (n1 n2 : String) (h1 : n1 ≠ "") (h2 : n2 ≠ "") :
    (ctbValidate { bundle with name := n1 }).1 =
      (ctbValidate { bundle with name := n2 }).1 := by
  unfold ctbValidate validateObjectMetaName noRestrictionsOnName
  simp only [h1, h2, if_false, List.map_nil]
  cases hm : normalizePEMTrustAnchors bundle.trustBundle with
  | none => simp
  | some normalized =>
    by_cases hz : normalized = [] <;> simp [hz]

/-- Witness for C2's amended theorem at two concrete names. -/
theorem ctbValidate_errors_ignore_name_witness :
    ("plain-name" : String) ≠ "" ∧ ("example.com:foo:x" : String) ≠ "" ∧
    (ctbValidate { tbSample with name := "plain-name" }).1 =
      (ctbValidate { tbSample with name := "example.com:foo:x" }).1 :=
  ⟨by decide, by decide,
    ctbValidate_errors_ignore_name tbSample "plain-name" "example.com:foo:x"
      (by decide) (by decide)⟩

/-! ### Properties of `ble` and `sortLe` -/

/-- Totality of byte-lexicographic less-or-equal. -/
theorem ble_total : ∀ a b : List Nat, ble a b = true ∨ ble b a = true
  | [], _ => Or.inl rfl
  | _ :: _, [] => Or.inr rfl
  | a :: as, b :: bs => by
      by_cases hab : a < b
      · exact Or.inl (by simp [ble, hab])
      · by_cases hba : b < a
        · exact Or.inr (by simp [ble, hba])
        · have : a = b := by omega
          subst this
          rcases ble_total as bs with h | h
          · exact Or.inl (by simp [ble, h])
          · exact Or.inr (by simp [ble, h])

/-- Transitivity of byte-lexicographic less-or-equal. -/
theorem ble_trans : ∀ {a b c : List Nat}, ble a b = true → ble b c = true →
    ble a c = true
  | [], _, _, _, _ => rfl
  | _ :: _, [], _, h, _ => by simp [ble] at h
  | _ :: _, _ :: _, [], _, h => by simp [ble] at h
  | a :: as, b :: bs, c :: cs, h1, h2 => by
      simp only [ble] at h1 h2 ⊢
      split at h1
      · rename_i hab
        split at h2
        · rename_i hbc
          simp [show a < c by omega]
        · rename_i hbc
          split at h2
          · exact absurd h2 (by simp)
          · rename_i hcb
            simp [show a < c by omega]
      · rename_i hab
        split at h1
        · exact absurd h1 (by simp)
        · rename_i hba
          split at h2
          · rename_i hbc
            simp [show a < c by omega]
          · rename_i hbc
            split at h2
            · exact absurd h2 (by simp)
            · rename_i hcb
              have htail : ble as cs = true := ble_trans h1 h2
              simp [show ¬ a < c by omega, show ¬ c < a by omega, htail]

/-- `insertLe` permutes a cons. -/
theorem insertLe_perm (x : List Nat) : ∀ l : List (List Nat),
    List.Perm (insertLe x l) (x :: l)
  | [] => List.Perm.refl _
  | y :: ys => by
      by_cases h : ble x y = true
      · simp [insertLe, h]
      · simp only [insertLe, if_neg h]
        exact (List.Perm.cons y (insertLe_perm x ys)).trans (List.Perm.swap x y ys)

/-- `sortLe` permutes its input. -/
theorem sortLe_perm : ∀ l : List (List Nat), List.Perm (sortLe l) l
  | [] => List.Perm.refl _
  | x :: xs =>
      ((insertLe_perm x (sortLe xs)).trans (List.Perm.cons x (sortLe_perm xs)))

/-- `insertLe` preserves sortedness. -/
theorem insertLe_sorted (x : List Nat) : ∀ {l : List (List Nat)},
    List.Pairwise (fun a b => ble a b = true) l →
    List.Pairwise (fun a b => ble a b = true) (insertLe x l)
  | [], _ => by simp [insertLe]
  | y :: ys, h => by
      obtain ⟨hy, hys⟩ := List.pairwise_cons.mp h
      by_cases hxy : ble x y = true
      · simp only [insertLe, if_pos hxy]
        refine List.pairwise_cons.mpr ⟨?_, h⟩
        intro z hz
        rcases List.mem_cons.mp hz with hz | hz
        · exact hz ▸ hxy
        · exact ble_trans hxy (hy z hz)
      · simp only [insertLe, if_neg hxy]
        have hyx : ble y x = true := (ble_total x y).resolve_left hxy
        refine List.pairwise_cons.mpr ⟨?_, insertLe_sorted x hys⟩
        intro z hz
        have hz2 : z ∈ x :: ys := (insertLe_perm x ys).subset hz
        rcases List.mem_cons.mp hz2 with hz2 | hz2
        · exact hz2 ▸ hyx
        · exact hy z hz2

/-- `sortLe` sorts. -/
theorem sortLe_sorted : ∀ l : List (List Nat),
    List.Pairwise (fun a b => ble a b = true) (sortLe l)
  | [] => List.Pairwise.nil
  | x :: xs => insertLe_sorted x (sortLe_sorted xs)

/-- `sortLe` fixes an already-sorted list. -/
theorem sortLe_eq_self : ∀ {l : List (List Nat)},
    List.Pairwise (fun a b => ble a b = true) l → sortLe l = l
  | [], _ => rfl
  | x :: xs, h => by
      obtain ⟨hx, hxs⟩ := List.pairwise_cons.mp h
      simp only [sortLe, sortLe_eq_self hxs]
      cases xs with
      | nil => rfl
      | cons y ys =>
        have hxy : ble x y = true := hx y (by simp)
        simp [insertLe, hxy]

/-- C8: with a synced cache, `GetTrustAnchorsBySigner` returns the
concatenated canonical CERTIFICATE re-encodings of a byte-sorted,
duplicate-free list containing exactly the DER byte strings of the PEM
blocks of the bundles that match the label selector and carry the given
signer name; before the initial sync, both `GetTrustAnchorsByName` and
`GetTrustAnchorsBySigner` fail with a not-synced error. -/
theorem getTrustAnchors_spec (st : TrustAnchorState) (signerName name : String)
    (sel : ClusterTrustBundle → Bool) :
    (st.synced = false →
      getTrustAnchorsByName st name =
        Except.error "ClusterTrustBundle informer has not yet synced" ∧
      getTrustAnchorsBySigner st signerName sel =
        Except.error "ClusterTrustBundle informer has not yet synced") ∧
    (st.synced = true →
      ∃ L, getTrustAnchorsBySigner st signerName sel =
          Except.ok ((L.map (fun d => encodeToMemory certType d)).flatten) ∧
        List.Pairwise (fun a b => ble a b = true) L ∧ L.Nodup ∧
        (∀ d, d ∈ L ↔ ∃ b, b ∈ st.bundles ∧ sel b = true ∧
          b.signerName = signerName ∧ d ∈ collectDERBlocks b.trustBundle)) := by
  constructor
  · intro hsync
    unfold getTrustAnchorsByName getTrustAnchorsBySigner
    simp [hsync]
  · intro hsync
    unfold getTrustAnchorsBySigner
    simp only [hsync, Bool.not_true, Bool.false_eq_true, if_false]
    refine ⟨_, rfl, sortLe_sorted _, ?_, ?_⟩
    · exact (sortLe_perm _).nodup_iff.mpr (List.nodup_dedup _)
    · intro d
      rw [(sortLe_perm _).mem_iff, List.mem_dedup]
      simp only [List.mem_flatten, List.mem_map, List.mem_filter]
      constructor
      · rintro ⟨l, ⟨b, ⟨⟨hb, hsel⟩, hsig⟩, hl⟩, hd⟩
        subst hl
        exact ⟨b, hb, hsel, by simpa using hsig, hd⟩
      · rintro ⟨b, hb, hsel, hsig, hd⟩
        exact ⟨collectDERBlocks b.trustBundle, ⟨b, ⟨⟨hb, hsel⟩, by simpa using hsig⟩, rfl⟩, hd⟩

/-- A concrete synced cache for the C8 witness: two bundles for the same
signer sharing one DER block, one bundle for another signer. -/
def trustStateSample : TrustAnchorState :=
  { synced := true
    bundles :=
      [ { name := "example.com:foo:a"
          signerName := "example.com/foo"
          trustBundle := encodeToMemory certType [9, 9] ++ encodeToMemory certType [1, 2] }
      , { name := "example.com:foo:b"
          signerName := "example.com/foo"
          trustBundle := encodeToMemory certType [9, 9] }
      , { name := "other"
          signerName := "example.com/bar"
          trustBundle := encodeToMemory certType [7] } ] }

/-- Witness for C8 at the concrete synced cache. -/
theorem getTrustAnchors_spec_witness :
    trustStateSample.synced = true ∧
    ∃ L, getTrustAnchorsBySigner trustStateSample "example.com/foo" (fun _ => true) =
        Except.ok ((L.map (fun d => encodeToMemory certType d)).flatten) ∧
      List.Pairwise (fun a b => ble a b = true) L ∧ L.Nodup ∧
      (∀ d, d ∈ L ↔ ∃ b, b ∈ trustStateSample.bundles ∧ (fun _ => true) b = true ∧
        b.signerName = "example.com/foo" ∧ d ∈ collectDERBlocks b.trustBundle) :=
  ⟨rfl, (getTrustAnchors_spec trustStateSample "example.com/foo" "unused"
    (fun _ => true)).2 rfl⟩

/-! ## Correctness of the base64 model -/

/-- Bytes that a base64 body can contain are none of LF, CR, tab, space,
dash, colon. -/
def b64ByteOk (c : Nat) : Prop :=
  c ≠ 10 ∧ c ≠ 13 ∧ c ≠ 9 ∧ c ≠ 32 ∧ c ≠ 45 ∧ c ≠ 58

/-- Every alphabet character is a benign body byte. -/
theorem b64char_byteOk (n : Nat) : b64ByteOk (b64char n) := by
  unfold b64char b64ByteOk
  split
  · omega
  · split
    · omega
    · split
      · omega
      · split <;> omega

/-- The padding byte is a benign body byte. -/
theorem pad_byteOk : b64ByteOk 61 := by
  unfold b64ByteOk
  omega

/-- Every byte of a base64 encoding is benign. -/
theorem b64encode_byteOk : ∀ (d : List Nat), ∀ c ∈ b64encode d, b64ByteOk c
  | [], c, hc => by simp [b64encode] at hc
  | [a], c, hc => by
      simp only [b64encode, List.mem_cons, List.not_mem_nil, or_false] at hc
      rcases hc with h | h | h | h <;> subst h
      · exact b64char_byteOk _
      · exact b64char_byteOk _
      · exact pad_byteOk
      · exact pad_byteOk
  | [a, b], c, hc => by
      simp only [b64encode, List.mem_cons, List.not_mem_nil, or_false] at hc
      rcases hc with h | h | h | h <;> subst h
      · exact b64char_byteOk _
      · exact b64char_byteOk _
      · exact b64char_byteOk _
      · exact pad_byteOk
  | a :: b :: c0 :: rest, c, hc => by
      simp only [b64encode, List.mem_cons] at hc
      rcases hc with h | h | h | h | h
      · exact h ▸ b64char_byteOk _
      · exact h ▸ b64char_byteOk _
      · exact h ▸ b64char_byteOk _
      · exact h ▸ b64char_byteOk _
      · exact b64encode_byteOk rest c h

/-- The alphabet is never the padding byte. -/
theorem b64char_ne_pad (n : Nat) : b64char n ≠ 61 := by
  unfold b64char
  split
  · omega
  · split
    · omega
    · split
      · omega
      · split <;> omega

/-- Decoding inverts the alphabet on sextets. -/
theorem b64charInv_b64char : ∀ s : Nat, s < 64 → b64charInv (b64char s) = some s := by
  decide

/-- A successful alphabet lookup is a sextet. -/
theorem b64charInv_lt {c s : Nat} (h : b64charInv c = some s) : s < 64 := by
  unfold b64charInv at h
  split at h
  · simp at h
    omega
  · split at h
    · simp at h
      omega
    · split at h
      · simp at h
        omega
      · split at h
        · simp at h
          omega
        · split at h
          · simp at h
            omega
          · simp at h

/-- Bytes produced by the raw base64 decoder are bytes. -/
theorem b64decodeRaw_lt : ∀ {l out : List Nat}, b64decodeRaw l = some out →
    ∀ x ∈ out, x < 256
  | [], out, h => by
      simp only [b64decodeRaw, Option.some.injEq] at h
      subst h
      simp
  | [_], _, h => by simp [b64decodeRaw] at h
  | [_, _], _, h => by simp [b64decodeRaw] at h
  | [_, _, _], _, h => by simp [b64decodeRaw] at h
  | c1 :: c2 :: c3 :: c4 :: rest, out, h => by
      simp only [b64decodeRaw] at h
      split at h
      · rename_i s1 s2 heq1 heq2
        have hs1 := b64charInv_lt heq1
        have hs2 := b64charInv_lt heq2
        split at h
        · split at h
          · simp only [Option.some.injEq] at h
            subst h
            intro x hx
            simp only [List.mem_singleton] at hx
            subst hx
            omega
          · simp at h
        · split at h
          · rename_i s3 heq3
            have hs3 := b64charInv_lt heq3
            split at h
            · split at h
              · simp only [Option.some.injEq] at h
                subst h
                intro x hx
                simp only [List.mem_cons, List.not_mem_nil, or_false] at hx
                rcases hx with hx | hx <;> subst hx <;> omega
              · simp at h
            · split at h
              · rename_i s4 heq4
                have hs4 := b64charInv_lt heq4
                cases ht : b64decodeRaw rest with
                | none =>
                  rw [ht] at h
                  simp at h
                | some tail =>
                  rw [ht] at h
                  simp only [Option.bind_eq_bind, Option.some_bind, Option.pure_def,
                    Option.some.injEq] at h
                  subst h
                  intro x hx
                  simp only [List.mem_cons] at hx
                  rcases hx with hx | hx | hx | hx
                  · subst hx; omega
                  · subst hx; omega
                  · subst hx; omega
                  · exact b64decodeRaw_lt ht x hx
              · simp at h
          · simp at h
      · simp at h

/-- The raw base64 decoder inverts the encoder on byte strings. -/
theorem b64decodeRaw_b64encode : ∀ {d : List Nat}, (∀ x ∈ d, x < 256) →
    b64decodeRaw (b64encode d) = some d
  | [], _ => rfl
  | [a], h => by
      have ha : a < 256 := h a (by simp)
      simp only [b64encode, b64decodeRaw]
      rw [b64charInv_b64char (a / 4) (by omega),
        b64charInv_b64char ((a % 4) * 16) (by omega)]
      simp
      all_goals omega
  | [a, b], h => by
      have ha : a < 256 := h a (by simp)
      have hb : b < 256 := h b (by simp)
      simp only [b64encode, b64decodeRaw]
      rw [b64charInv_b64char (a / 4) (by omega),
        b64charInv_b64char ((a % 4) * 16 + b / 16) (by omega),
        b64charInv_b64char ((b % 16) * 4) (by omega)]
      simp [b64char_ne_pad]
      all_goals omega
  | a :: b :: c :: rest, h => by
      have ha : a < 256 := h a (by simp)
      have hb : b < 256 := h b (by simp)
      have hc : c < 256 := h c (by simp)
      have hrest : ∀ x ∈ rest, x < 256 := fun x hx => h x (by simp [hx])
      simp only [b64encode, b64decodeRaw]
      rw [b64charInv_b64char (a / 4) (by omega),
        b64charInv_b64char ((a % 4) * 16 + b / 16) (by omega),
        b64charInv_b64char ((b % 16) * 4 + c / 64) (by omega),
        b64charInv_b64char (c % 64) (by omega),
        b64decodeRaw_b64encode hrest]
      simp [b64char_ne_pad]
      all_goals omega

/-! ## Structure of the wrapped base64 body -/

/-- Flattening the chunks recovers the input. -/
theorem chunk64F_flatten : ∀ {fuel : Nat} {bs : List Nat}, bs.length ≤ fuel →
    (chunk64F fuel bs).flatten = bs := by
  intro fuel
  induction fuel with
  | zero =>
    intro bs h
    have : bs = [] := List.length_eq_zero.mp (Nat.le_zero.mp h)
    subst this
    rfl
  | succ n ih =>
    intro bs h
    by_cases hb : bs = []
    · subst hb
      rfl
    · have hlen : 0 < bs.length := List.length_pos.mpr hb
      simp only [chunk64F, if_neg hb, List.flatten_cons]
      rw [ih (by simp only [List.length_drop]; omega)]
      exact List.take_append_drop 64 bs

/-- Flattening `chunk64` recovers the input. -/
theorem chunk64_flatten (bs : List Nat) : (chunk64 bs).flatten = bs :=
  chunk64F_flatten (le_refl _)

/-- Every chunk is nonempty and made of input bytes. -/
theorem chunk64F_mem : ∀ {fuel : Nat} {bs l : List Nat}, bs.length ≤ fuel →
    l ∈ chunk64F fuel bs → l ≠ [] ∧ ∀ c ∈ l, c ∈ bs := by
  intro fuel
  induction fuel with
  | zero =>
    intro bs l h hl
    have : bs = [] := List.length_eq_zero.mp (Nat.le_zero.mp h)
    subst this
    simp [chunk64F] at hl
  | succ n ih =>
    intro bs l h hl
    by_cases hb : bs = []
    · subst hb
      simp [chunk64F] at hl
    · have hlen : 0 < bs.length := List.length_pos.mpr hb
      simp only [chunk64F, if_neg hb, List.mem_cons] at hl
      rcases hl with hl | hl
      · subst hl
        refine ⟨?_, fun c hc => List.take_subset 64 bs hc⟩
        intro hnil
        rw [List.take_eq_nil_iff] at hnil
        rcases hnil with h64 | hnil
        · exact absurd h64 (by omega)
        · exact hb hnil
      · obtain ⟨hne, hsub⟩ := ih (by simp only [List.length_drop]; omega) hl
        exact ⟨hne, fun c hc => List.drop_subset 64 bs (hsub c hc)⟩

/-- Every chunk of `chunk64` is nonempty and made of input bytes. -/
theorem chunk64_mem {bs l : List Nat} (hl : l ∈ chunk64 bs) :
    l ≠ [] ∧ ∀ c ∈ l, c ∈ bs :=
  chunk64F_mem (le_refl _) hl

/-- Bytes of `joinLines` are line bytes or the LF separators. -/
theorem joinLines_mem : ∀ {ls : List (List Nat)} {c : Nat}, c ∈ joinLines ls →
    c = 10 ∨ ∃ l ∈ ls, c ∈ l := by
  intro ls
  induction ls with
  | nil =>
    intro c hc
    simp [joinLines] at hc
  | cons l ls ih =>
    intro c hc
    simp only [joinLines, List.map_cons, List.flatten_cons, List.mem_append,
      List.mem_cons, List.not_mem_nil, or_false] at hc
    rcases hc with (hc | hc) | hc
    · exact Or.inr ⟨l, by simp, hc⟩
    · exact Or.inl hc
    · rcases ih hc with h | ⟨l2, hl2, hcl2⟩
      · exact Or.inl h
      · exact Or.inr ⟨l2, by simp [hl2], hcl2⟩

/-- A nonempty `joinLines` ends with LF. -/
theorem joinLines_getLast : ∀ {ls : List (List Nat)}, ls ≠ [] →
    (joinLines ls).getLast? = some 10 := by
  intro ls
  induction ls with
  | nil => intro h; exact absurd rfl h
  | cons l ls ih =>
    intro _
    by_cases hls : ls = []
    · subst hls
      simp [joinLines, List.getLast?_append]
    · have hih := ih hls
      simp only [joinLines, List.map_cons, List.flatten_cons]
      rw [List.getLast?_append]
      rw [show (List.map (fun l => l ++ [10]) ls).flatten = joinLines ls from rfl, hih]
      rfl

/-- Filtering out the separators of `joinLines` recovers the flattened
lines, when the filter keeps every line byte and drops LF. -/
theorem joinLines_filter {p : Nat → Bool} : ∀ {ls : List (List Nat)},
    (∀ l ∈ ls, ∀ c ∈ l, p c = true) → p 10 = false →
    (joinLines ls).filter p = ls.flatten := by
  intro ls
  induction ls with
  | nil => intro _ _; rfl
  | cons l ls ih =>
    intro hall h10
    simp only [joinLines, List.map_cons, List.flatten_cons, List.filter_append]
    rw [List.filter_eq_self.mpr (fun c hc => hall l (by simp) c hc)]
    have hf10 : List.filter p [10] = [] := by simp [h10]
    rw [hf10]
    simp only [List.append_nil]
    exact congrArg (l ++ ·) (ih (fun l2 hl2 => hall l2 (by simp [hl2])) h10)

/-! ## Line-level helper lemmas for the canonical decode -/

/-- A line without trailing CR is left unchanged by `stripCR`. -/
theorem stripCR_eq_self {l : List Nat} (h : ∀ c ∈ l, c ≠ 13) : stripCR l = l := by
  unfold stripCR
  cases hg : l.getLast? with
  | none => simp
  | some x =>
    have hx' : x ∈ l.getLast? := by rw [hg]; rfl
    obtain ⟨hne, heq⟩ := List.mem_getLast?_eq_getLast hx'
    have hx : x ∈ l := heq ▸ List.getLast_mem hne
    have : x ≠ 13 := h x hx
    simp [this]

/-- A line without trailing space or tab is left unchanged. -/
theorem trimRightST_eq_self {l : List Nat} (h : ∀ c ∈ l, c ≠ 32 ∧ c ≠ 9) :
    trimRightST l = l := by
  unfold trimRightST
  cases hr : l.reverse with
  | nil =>
    have : l = [] := by simpa using congrArg List.reverse hr
    subst this
    rfl
  | cons x xs =>
    have hx : x ∈ l := by
      rw [← List.mem_reverse, hr]
      simp
    obtain ⟨h32, h9⟩ := h x hx
    rw [List.dropWhile_cons]
    simp only [h32, h9, decide_False, Bool.or_self, if_false]
    rw [← hr]
    simp

/-- `getLine` on a clean line followed by LF. -/
theorem getLine_clean {l r : List Nat}
    (h : ∀ c ∈ l, c ≠ 10 ∧ c ≠ 13 ∧ c ≠ 32 ∧ c ≠ 9) :
    getLine (l ++ 10 :: r) = (l, r) := by
  unfold getLine
  rw [splitNL_append (fun c hc => (h c hc).1)]
  dsimp only
  rw [stripCR_eq_self (fun c hc => (h c hc).2.1)]
  rw [trimRightST_eq_self (fun c hc => (h c hc).2.2)]

/-- `stripCR` from the final byte only. -/
theorem stripCR_of_getLast {l : List Nat} (h : l.getLast? ≠ some 13) :
    stripCR l = l := by
  unfold stripCR
  simp [h]

/-- `trimRightST` from the final byte only: right-trimming stops at the
first kept byte. -/
theorem trimRightST_of_getLast {l : List Nat}
    (h : ∀ x, l.getLast? = some x → x ≠ 32 ∧ x ≠ 9) : trimRightST l = l := by
  unfold trimRightST
  cases hr : l.reverse with
  | nil =>
    have : l = [] := by simpa using congrArg List.reverse hr
    subst this
    rfl
  | cons x xs =>
    have hlast : l.getLast? = some x := by
      rw [← List.head?_reverse, hr]
      rfl
    obtain ⟨h32, h9⟩ := h x hlast
    rw [List.dropWhile_cons]
    simp only [h32, h9, decide_False, Bool.or_self, if_false]
    rw [← hr]
    simp

/-- `getLine` on a line that contains no LF and does not end in CR,
space or tab, followed by LF. -/
theorem getLine_clean2 {l r : List Nat} (h10 : ∀ c ∈ l, c ≠ 10)
    (hlast : ∀ x, l.getLast? = some x → x ≠ 13 ∧ x ≠ 32 ∧ x ≠ 9) :
    getLine (l ++ 10 :: r) = (l, r) := by
  unfold getLine
  rw [splitNL_append h10]
  dsimp only
  rw [stripCR_of_getLast (fun he => ((hlast 13 he).1 rfl))]
  rw [trimRightST_of_getLast (fun x hx => (hlast x hx).2)]

/-- A colon-free line has no header split. -/
theorem splitAtColon_eq_none : ∀ {l : List Nat}, (∀ c ∈ l, c ≠ 58) →
    splitAtColon l = none
  | [], _ => rfl
  | c :: cs, h => by
      have hc : c ≠ 58 := h c (by simp)
      simp only [splitAtColon, if_neg hc]
      rw [splitAtColon_eq_none (fun x hx => h x (by simp [hx]))]
      rfl

/-- A pattern is a leading substring of itself followed by anything. -/
theorem isPrefixOf_append_self (p z : List Nat) : p.isPrefixOf (p ++ z) = true :=
  List.isPrefixOf_iff_prefix.mpr (List.prefix_append p z)

/-- A pattern whose head differs from the data head is not a leading
substring. -/
theorem isPrefixOf_cons_false {p0 c : Nat} {p' z : List Nat} (h : p0 ≠ c) :
    (p0 :: p').isPrefixOf (c :: z) = false := by
  simp [List.isPrefixOf, h]

/-- Dropping the length of a leading chunk shifts `indexOfPat` when the
pattern head cannot occur in the chunk. -/
theorem indexOfPat_shift {p0 : Nat} {p' : List Nat} : ∀ {l z : List Nat},
    (∀ c ∈ l, c ≠ p0) →
    indexOfPat (p0 :: p') (l ++ z) = (indexOfPat (p0 :: p') z).map (· + l.length)
  | [], z, _ => by
      cases hz : indexOfPat (p0 :: p') z <;> simp [hz]
  | c :: cs, z, h => by
      have hc : c ≠ p0 := h c (by simp)
      rw [List.cons_append]
      rw [show indexOfPat (p0 :: p') (c :: (cs ++ z)) =
          (indexOfPat (p0 :: p') (cs ++ z)).map (· + 1) from by
        simp [indexOfPat, isPrefixOf_cons_false (fun he => hc he.symm)]]
      rw [indexOfPat_shift (fun x hx => h x (by simp [hx]))]
      cases hz : indexOfPat (p0 :: p') z <;> simp <;> omega

/-- A nonempty line list joins to a nonempty byte string. -/
theorem joinLines_ne_nil {ls : List (List Nat)} (h : ls ≠ []) :
    joinLines ls ≠ [] := by
  cases ls with
  | nil => exact absurd rfl h
  | cons l ls' => simp [joinLines]

/-- `headerLoop` stops immediately when the first line has no colon. -/
theorem headerLoop_first_line {body : List Nat} (hne : body ≠ [])
    (hcolon : splitAtColon (getLine body).1 = none) :
    headerLoop body = some ([], body) := by
  rw [headerLoop_eq, if_neg hne, hcolon]

/-- Matching heads reduce `isPrefixOf`. -/
theorem isPrefixOf_cons_cons {a : Nat} {p w : List Nat} :
    (a :: p).isPrefixOf (a :: w) = p.isPrefixOf w := by
  simp [List.isPrefixOf]

/-- `indexOfPat` steps over a non-matching head. -/
theorem indexOfPat_cons_of_ne {pat : List Nat} {c : Nat} {w : List Nat}
    (h : pat.isPrefixOf (c :: w) = false) :
    indexOfPat pat (c :: w) = (indexOfPat pat w).map (· + 1) := by
  simp [indexOfPat, h]

/-- Position of the first end marker after a wrapped base64 body: the
marker's LF is the final LF of the body. -/
theorem indexOfPat_joinLines : ∀ {ls : List (List Nat)} {z : List Nat},
    ls ≠ [] → (∀ l ∈ ls, l ≠ [] ∧ ∀ c ∈ l, c ≠ 10 ∧ c ≠ 45) →
    pemEndTail.isPrefixOf z = true →
    indexOfPat pemEndFull (joinLines ls ++ z) = some ((joinLines ls).length - 1) := by
  intro ls
  induction ls with
  | nil => intro z h; exact absurd rfl h
  | cons l ls' ih =>
    intro z _ hall hz
    obtain ⟨hlne, hlchars⟩ := hall l (by simp)
    rw [show pemEndFull = 10 :: pemEndTail from rfl]
    cases ls' with
    | nil =>
      simp only [joinLines, List.map_cons, List.map_nil, List.flatten_cons,
        List.flatten_nil, List.append_nil, List.append_assoc, List.singleton_append]
      rw [indexOfPat_shift (fun c hc => (hlchars c hc).1)]
      rw [show indexOfPat (10 :: pemEndTail) (10 :: z) = some 0 from by
        simp [indexOfPat, isPrefixOf_cons_cons, hz]]
      simp

    | cons l2 ls2 =>
      obtain ⟨hl2ne, hl2chars⟩ := hall l2 (by simp)
      have hihres := ih (by simp) (fun l3 hl3 => hall l3 (by simp [hl3])) hz
      rw [show pemEndFull = 10 :: pemEndTail from rfl] at hihres
      simp only [joinLines, List.map_cons, List.flatten_cons, List.append_assoc,
        List.singleton_append] at hihres ⊢
      rw [indexOfPat_shift (fun c hc => (hlchars c hc).1)]
      cases hl2 : l2 with
      | nil => exact absurd hl2 hl2ne
      | cons c2 cs2 =>
        have hc2 : (45 : Nat) ≠ c2 := fun he =>
          (hl2chars c2 (by simp [hl2])).2 he.symm
        rw [hl2] at hihres
        simp only [List.cons_append] at hihres ⊢
        rw [indexOfPat_cons_of_ne (by
          rw [isPrefixOf_cons_cons]
          rw [show pemEndTail = 45 :: (asciiStr "----END ") from rfl]
          exact isPrefixOf_cons_false hc2)]
        rw [show (10 : Nat) :: ((List.map (fun l => l ++ [10]) ls2).flatten ++ z) =
          (10 :: (List.map (fun l => l ++ [10]) ls2).flatten) ++ z from rfl] at hihres
        rw [List.append_assoc cs2 ((10 : Nat) :: (List.map (fun l => l ++ [10]) ls2).flatten) z]
        rw [hihres]
        simp
        all_goals omega

/-- Encoding a nonempty byte string yields a nonempty text. -/
theorem b64encode_ne_nil : ∀ {d : List Nat}, d ≠ [] → b64encode d ≠ []
  | [], h => absurd rfl h
  | [_], _ => by simp [b64encode]
  | [_, _], _ => by simp [b64encode]
  | _ :: _ :: _ :: _, _ => by simp [b64encode]

/-- Chunking a nonempty byte string yields chunks. -/
theorem chunk64_ne_nil {bs : List Nat} (h : bs ≠ []) : chunk64 bs ≠ [] := by
  rw [chunk64_eq, if_neg h]
  simp

/-- Every chunk of an encoded body is nonempty benign text. -/
theorem chunk64_b64_facts {d : List Nat} :
    ∀ l ∈ chunk64 (b64encode d), l ≠ [] ∧ ∀ c ∈ l, b64ByteOk c := by
  intro l hl
  obtain ⟨hne, hsub⟩ := chunk64_mem hl
  exact ⟨hne, fun c hc => b64encode_byteOk d c (hsub c hc)⟩

/-- Core canonical-decode lemma: from a position right after a begin
marker whose remaining data is exactly the canonical certificate payload
(wrapped base64 of `d`, end marker, LF) followed by `r`, one `pemDecodeF`
iteration returns the block with bytes `d` and rest `r`, for any fuel. -/
theorem pemDecodeF_from_begin (fuel : Nat) {X : List Nat} (d r : List Nat)
    (hd : ∀ b ∈ d, b < 256)
    (hadv : advanceToBegin X = some (asciiStr "CERTIFICATE-----" ++ 10 ::
      (wrapped64 (b64encode d) ++ (asciiStr "-----END CERTIFICATE-----" ++ 10 :: r)))) :
    pemDecodeF (fuel + 1) X = some ({ type := certType, headers := [], bytes := d }, r) := by
  have hTLchars : ∀ c ∈ asciiStr "CERTIFICATE-----", c ≠ 10 ∧ c ≠ 13 ∧ c ≠ 32 ∧ c ≠ 9 := by
    decide
  simp only [pemDecodeF]
  rw [hadv]
  dsimp only
  rw [getLine_clean hTLchars]
  dsimp only
  rw [if_pos (show pemEol.isSuffixOf (asciiStr "CERTIFICATE-----") = true by decide)]
  rw [show List.take ((asciiStr "CERTIFICATE-----").length - pemEol.length)
    (asciiStr "CERTIFICATE-----") = certType from rfl]
  by_cases hde : d = []
  · subst hde
    rw [show wrapped64 (b64encode []) = [] from rfl]
    rw [List.nil_append]
    have hheader : headerLoop (asciiStr "-----END CERTIFICATE-----" ++ 10 :: r) =
        some ([], asciiStr "-----END CERTIFICATE-----" ++ 10 :: r) := by
      refine headerLoop_first_line (by simp [asciiStr]) ?_
      rw [getLine_clean2 (by decide) (by decide)]
      exact (by decide : splitAtColon (asciiStr "-----END CERTIFICATE-----") = none)
    rw [hheader]
    dsimp only
    rw [if_pos (show ([] : List (List Nat × List Nat)) = [] ∧
        pemEndTail.isPrefixOf (asciiStr "-----END CERTIFICATE-----" ++ 10 :: r) = true from
      ⟨rfl, by
        rw [show asciiStr "-----END CERTIFICATE-----" ++ 10 :: r =
          pemEndTail ++ (asciiStr "CERTIFICATE-----" ++ 10 :: r) from by
            simp [pemEndTail, asciiStr]]
        exact isPrefixOf_append_self _ _⟩)]
    dsimp only
    rw [show asciiStr "-----END CERTIFICATE-----" ++ 10 :: r =
      pemEndTail ++ (asciiStr "CERTIFICATE-----" ++ 10 :: r) from by
        simp [pemEndTail, asciiStr]]
    rw [show (List.drop pemEndTail.length
        (pemEndTail ++ (asciiStr "CERTIFICATE-----" ++ 10 :: r))) =
      asciiStr "CERTIFICATE-----" ++ 10 :: r from List.drop_left' rfl]
    rw [if_neg (show ¬ ((asciiStr "CERTIFICATE-----" ++ 10 :: r).length <
        certType.length + pemEol.length) from by
      simp [asciiStr, certType, pemEol])]
    rw [show List.take (certType.length + pemEol.length)
        (asciiStr "CERTIFICATE-----" ++ 10 :: r) =
      asciiStr "CERTIFICATE-----" from List.take_left' rfl]
    rw [if_pos (show certType.isPrefixOf (asciiStr "CERTIFICATE-----") = true ∧
        pemEol.isSuffixOf (asciiStr "CERTIFICATE-----") = true from by decide)]
    rw [show List.drop (certType.length + pemEol.length)
        (asciiStr "CERTIFICATE-----" ++ 10 :: r) = 10 :: r from List.drop_left' rfl]
    rw [show getLine (10 :: r) = ([], r) from getLine_clean (l := []) (by simp)]
    dsimp only
    rw [if_pos rfl]
    rw [show List.take 0 (pemEndTail ++ (asciiStr "CERTIFICATE-----" ++ 10 :: r)) = []
      from rfl]
    rfl
  · have hbne : b64encode d ≠ [] := b64encode_ne_nil hde
    have hlsne : chunk64 (b64encode d) ≠ [] := chunk64_ne_nil hbne
    have hWrfl : wrapped64 (b64encode d) = joinLines (chunk64 (b64encode d)) := rfl
    have hfacts := chunk64_b64_facts (d := d)
    have hfacts45 : ∀ l ∈ chunk64 (b64encode d), l ≠ [] ∧ ∀ c ∈ l, c ≠ 10 ∧ c ≠ 45 := by
      intro l hl
      obtain ⟨hne, hok⟩ := hfacts l hl
      exact ⟨hne, fun c hc => ⟨(hok c hc).1, (hok c hc).2.2.2.2.1⟩⟩
    have hW1 : 0 < (wrapped64 (b64encode d)).length :=
      List.length_pos.mpr (hWrfl ▸ joinLines_ne_nil hlsne)
    have hzpre : pemEndTail.isPrefixOf (asciiStr "-----END CERTIFICATE-----" ++ 10 :: r) =
        true := by
      rw [show asciiStr "-----END CERTIFICATE-----" ++ 10 :: r =
        pemEndTail ++ (asciiStr "CERTIFICATE-----" ++ 10 :: r) from by
          simp [pemEndTail, asciiStr]]
      exact isPrefixOf_append_self _ _
    -- first chunk, for the cons views of the body
    obtain ⟨l0, ls', hls0⟩ : ∃ l0 ls', chunk64 (b64encode d) = l0 :: ls' := by
      cases hc : chunk64 (b64encode d) with
      | nil => exact absurd hc hlsne
      | cons a b => exact ⟨a, b, rfl⟩
    obtain ⟨hl0ne, hl0ok⟩ := hfacts l0 (by rw [hls0]; simp)
    obtain ⟨c0, l0', hl0c⟩ : ∃ c0 l0', l0 = c0 :: l0' := by
      cases hc : l0 with
      | nil => exact absurd hc hl0ne
      | cons a b => exact ⟨a, b, rfl⟩
    have hbodycons : wrapped64 (b64encode d) ++ (asciiStr "-----END CERTIFICATE-----" ++ 10 :: r) =
        l0 ++ 10 :: (joinLines ls' ++ (asciiStr "-----END CERTIFICATE-----" ++ 10 :: r)) := by
      rw [hWrfl, hls0]
      simp [joinLines, List.append_assoc]
    have hheader : headerLoop (wrapped64 (b64encode d) ++
        (asciiStr "-----END CERTIFICATE-----" ++ 10 :: r)) =
        some ([], wrapped64 (b64encode d) ++ (asciiStr "-----END CERTIFICATE-----" ++ 10 :: r)) := by
      refine headerLoop_first_line ?_ ?_
      · rw [hbodycons, hl0c]
        simp
      · rw [hbodycons]
        rw [getLine_clean2 (fun c hc => (hl0ok c hc).1) (fun x hx => by
          have hxl : x ∈ l0 := by
            obtain ⟨hne2, heq2⟩ := List.mem_getLast?_eq_getLast (by rw [hx]; rfl)
            exact heq2 ▸ List.getLast_mem hne2
          exact ⟨(hl0ok x hxl).2.1, (hl0ok x hxl).2.2.2.1, (hl0ok x hxl).2.2.1⟩)]
        exact splitAtColon_eq_none (fun c hc => (hl0ok c hc).2.2.2.2.2)
    rw [hheader]
    dsimp only
    rw [if_neg (show ¬ (([] : List (List Nat × List Nat)) = [] ∧
        pemEndTail.isPrefixOf (wrapped64 (b64encode d) ++
          (asciiStr "-----END CERTIFICATE-----" ++ 10 :: r)) = true) from by
      intro hcon
      have hpre := hcon.2
      rw [hbodycons, hl0c] at hpre
      rw [show pemEndTail = 45 :: (asciiStr "----END ") from rfl] at hpre
      rw [List.cons_append] at hpre
      rw [isPrefixOf_cons_false (fun he => (hl0ok c0 (by simp [hl0c])).2.2.2.2.1 he.symm)] at hpre
      exact Bool.false_ne_true hpre)]
    rw [hWrfl]
    rw [indexOfPat_joinLines hlsne (by rw [← hls0] at *; exact hfacts45) hzpre]
    rw [show (Option.map (fun i => (i, i + pemEndFull.length))
        (some ((joinLines (chunk64 (b64encode d))).length - 1))) =
      some ((joinLines (chunk64 (b64encode d))).length - 1,
        (joinLines (chunk64 (b64encode d))).length - 1 + pemEndFull.length) from rfl]
    dsimp only
    have hW1j : 0 < (joinLines (chunk64 (b64encode d))).length := by
      have := hW1
      rw [hWrfl] at this
      exact this
    have hdrop : List.drop ((joinLines (chunk64 (b64encode d))).length - 1 + pemEndFull.length)
        (joinLines (chunk64 (b64encode d)) ++ (asciiStr "-----END CERTIFICATE-----" ++ 10 :: r)) =
        asciiStr "CERTIFICATE-----" ++ 10 :: r := by
      rw [show pemEndFull.length = 10 from rfl]
      rw [show (joinLines (chunk64 (b64encode d))).length - 1 + 10 =
        (joinLines (chunk64 (b64encode d))).length + 9 from by omega]
      rw [List.drop_append 9]
      rw [show asciiStr "-----END CERTIFICATE-----" ++ 10 :: r =
        pemEndTail ++ (asciiStr "CERTIFICATE-----" ++ 10 :: r) from by
          simp [pemEndTail, asciiStr]]
      exact List.drop_left' rfl
    rw [hdrop]
    rw [if_neg (show ¬ ((asciiStr "CERTIFICATE-----" ++ 10 :: r).length <
        certType.length + pemEol.length) from by
      simp [asciiStr, certType, pemEol])]
    rw [show List.take (certType.length + pemEol.length)
        (asciiStr "CERTIFICATE-----" ++ 10 :: r) =
      asciiStr "CERTIFICATE-----" from List.take_left' rfl]
    rw [if_pos (show certType.isPrefixOf (asciiStr "CERTIFICATE-----") = true ∧
        pemEol.isSuffixOf (asciiStr "CERTIFICATE-----") = true from by decide)]
    rw [show List.drop (certType.length + pemEol.length)
        (asciiStr "CERTIFICATE-----" ++ 10 :: r) = 10 :: r from List.drop_left' rfl]
    rw [show getLine (10 :: r) = ([], r) from getLine_clean (l := []) (by simp)]
    dsimp only
    rw [if_pos rfl]
    have htake : List.take ((joinLines (chunk64 (b64encode d))).length - 1)
        (joinLines (chunk64 (b64encode d)) ++ (asciiStr "-----END CERTIFICATE-----" ++ 10 :: r)) =
        (joinLines (chunk64 (b64encode d))).dropLast := by
      rw [List.take_append_of_le_length (by omega), ← List.dropLast_eq_take]
    rw [htake]
    have hfilterST : List.filter (fun c => !(c = 32 || c = 9))
        ((joinLines (chunk64 (b64encode d))).dropLast) =
        (joinLines (chunk64 (b64encode d))).dropLast := by
      rw [List.filter_eq_self]
      intro c hc
      have hcW : c ∈ joinLines (chunk64 (b64encode d)) := List.dropLast_subset _ hc
      rcases joinLines_mem hcW with h10 | hok
      · subst h10
        decide
      · obtain ⟨l, hl, hcl⟩ := hok
        have hok2 := (hfacts l hl).2 c hcl
        simp [hok2.2.2.2.1, hok2.2.2.1]
    rw [hfilterST]
    have hlast10 : (joinLines (chunk64 (b64encode d))).getLast? = some 10 :=
      joinLines_getLast hlsne
    have hdecomp : (joinLines (chunk64 (b64encode d))).dropLast ++ [10] =
        joinLines (chunk64 (b64encode d)) :=
      List.dropLast_append_getLast? 10 (by rw [hlast10]; rfl)
    have hfilterNL : List.filter (fun c => !(c = 10 || c = 13))
        ((joinLines (chunk64 (b64encode d))).dropLast) = b64encode d := by
      have hstep : List.filter (fun c => !(c = 10 || c = 13))
          ((joinLines (chunk64 (b64encode d))).dropLast) =
          List.filter (fun c => !(c = 10 || c = 13))
            (joinLines (chunk64 (b64encode d))) := by
        conv_rhs => rw [← hdecomp]
        rw [List.filter_append]
        simp
      rw [hstep]
      rw [joinLines_filter (fun l hl c hc => by
        have hok2 := (hfacts l hl).2 c hc
        simp [hok2.1, hok2.2.1]) (by decide)]
      exact chunk64_flatten (b64encode d)
    rw [show b64decode ((joinLines (chunk64 (b64encode d))).dropLast) = some d from by
      unfold b64decode
      rw [hfilterNL]
      exact b64decodeRaw_b64encode hd]

/-- Every byte of a decoded block body is below 256: the body comes from
`b64decode`, which assembles bytes modulo 256. -/
theorem pemDecodeF_bytes_lt : ∀ {fuel : Nat} {rest : List Nat} {b : PemBlock}
    {r : List Nat}, pemDecodeF fuel rest = some (b, r) → ∀ c ∈ b.bytes, c < 256 := by
  intro fuel
  induction fuel with
  | zero =>
    intro rest b r h
    simp [pemDecodeF] at h
  | succ n ih =>
    intro rest b r h
    simp only [pemDecodeF] at h
    split at h
    · exact absurd h (by simp)
    · rename_i rest1 h1
      split at h
      · split at h
        · exact absurd h (by simp)
        · rename_i hsr hh
          split at h
          · exact ih h
          · rename_i ei hei
            split at h
            · exact ih h
            · split at h
              · split at h
                · split at h
                  · exact ih h
                  · rename_i bodyBytes hbody
                    simp only [Option.some.injEq, Prod.mk.injEq] at h
                    obtain ⟨hb, -⟩ := h
                    subst hb
                    unfold b64decode at hbody
                    exact fun c hc => b64decodeRaw_lt hbody c hc
                · exact ih h
              · exact ih h
      · exact ih h

/-- `pemDecode` version of `pemDecodeF_bytes_lt`. -/
theorem pemDecode_bytes_lt {rest : List Nat} {b : PemBlock} {r : List Nat}
    (h : pemDecode rest = some (b, r)) : ∀ c ∈ b.bytes, c < 256 :=
  pemDecodeF_bytes_lt h

/-- The canonical encoding of a certificate block, followed by anything,
decomposed at the begin marker. -/
theorem encTM_shape (d r : List Nat) :
    encodeToMemory certType d ++ r =
      pemStartTail ++ (asciiStr "CERTIFICATE-----" ++ 10 ::
        (wrapped64 (b64encode d) ++ (asciiStr "-----END CERTIFICATE-----" ++ 10 :: r))) := by
  simp [encodeToMemory, pemStartTail, certType, asciiStr]

/-- `advanceToBegin` on a canonical encoding positions right after the
begin marker. -/
theorem advanceToBegin_encTM (d r : List Nat) :
    advanceToBegin (encodeToMemory certType d ++ r) =
      some (asciiStr "CERTIFICATE-----" ++ 10 ::
        (wrapped64 (b64encode d) ++ (asciiStr "-----END CERTIFICATE-----" ++ 10 :: r))) := by
  rw [encTM_shape]
  unfold advanceToBegin
  rw [if_pos (isPrefixOf_append_self _ _)]
  congr 1

/-- Same as `advanceToBegin_encTM` for an input led by a single LF
separator. -/
theorem advanceToBegin_encTM10 (d r : List Nat) :
    advanceToBegin (10 :: (encodeToMemory certType d ++ r)) =
      some (asciiStr "CERTIFICATE-----" ++ 10 ::
        (wrapped64 (b64encode d) ++ (asciiStr "-----END CERTIFICATE-----" ++ 10 :: r))) := by
  rw [encTM_shape]
  unfold advanceToBegin
  rw [if_neg (by
    rw [show pemStartTail = 45 :: asciiStr "----BEGIN " from rfl, List.cons_append]
    rw [isPrefixOf_cons_false (by decide)]
    simp)]
  rw [show cutAfter pemStartFull (10 ::
      (pemStartTail ++ (asciiStr "CERTIFICATE-----" ++ 10 ::
        (wrapped64 (b64encode d) ++ (asciiStr "-----END CERTIFICATE-----" ++ 10 :: r))))) =
    if pemStartFull.isPrefixOf (10 ::
      (pemStartTail ++ (asciiStr "CERTIFICATE-----" ++ 10 ::
        (wrapped64 (b64encode d) ++ (asciiStr "-----END CERTIFICATE-----" ++ 10 :: r))))) = true
    then some ((10 ::
      (pemStartTail ++ (asciiStr "CERTIFICATE-----" ++ 10 ::
        (wrapped64 (b64encode d) ++
          (asciiStr "-----END CERTIFICATE-----" ++ 10 :: r))))).drop pemStartFull.length)
    else cutAfter pemStartFull
      (pemStartTail ++ (asciiStr "CERTIFICATE-----" ++ 10 ::
        (wrapped64 (b64encode d) ++ (asciiStr "-----END CERTIFICATE-----" ++ 10 :: r))))
    from rfl]
  rw [if_pos (by
    rw [show pemStartFull = 10 :: pemStartTail from rfl, isPrefixOf_cons_cons]
    exact isPrefixOf_append_self _ _)]
  rw [show pemStartFull.length = 12 from rfl]
  rw [show List.drop 12 (10 ::
      (pemStartTail ++ (asciiStr "CERTIFICATE-----" ++ 10 ::
        (wrapped64 (b64encode d) ++ (asciiStr "-----END CERTIFICATE-----" ++ 10 :: r))))) =
    List.drop 11 (pemStartTail ++ (asciiStr "CERTIFICATE-----" ++ 10 ::
        (wrapped64 (b64encode d) ++ (asciiStr "-----END CERTIFICATE-----" ++ 10 :: r))))
    from rfl]
  rw [List.drop_left' (show pemStartTail.length = 11 from rfl)]

/-- `pem.Decode` on a canonical certificate encoding yields exactly the
original DER bytes, no headers, and the trailing data. -/
theorem pemDecode_encTM (d r : List Nat) (hd : ∀ b ∈ d, b < 256) :
    pemDecode (encodeToMemory certType d ++ r) =
      some ({ type := certType, headers := [], bytes := d }, r) := by
  have hpos : 0 < (encodeToMemory certType d ++ r).length := by
    rw [encTM_shape, List.length_append]
    rw [show pemStartTail.length = 11 from rfl]
    omega
  unfold pemDecode
  cases hn : (encodeToMemory certType d ++ r).length with
  | zero => omega
  | succ n => exact pemDecodeF_from_begin n d r hd (advanceToBegin_encTM d r)

/-- `pemDecode_encTM` for an input led by a single LF separator. -/
theorem pemDecode_encTM10 (d r : List Nat) (hd : ∀ b ∈ d, b < 256) :
    pemDecode (10 :: (encodeToMemory certType d ++ r)) =
      some ({ type := certType, headers := [], bytes := d }, r) := by
  unfold pemDecode
  rw [show (10 :: (encodeToMemory certType d ++ r)).length =
    (encodeToMemory certType d ++ r).length + 1 from rfl]
  exact pemDecodeF_from_begin _ d r hd (advanceToBegin_encTM10 d r)

/-- The collect loop inverts the normalizer's own output format: on a list
of canonical certificate encodings joined by single LFs it recovers
exactly that list, with or without a leading LF separator. -/
theorem collectCertBlocks_canonical : ∀ (E : List (List Nat)),
    (∀ e ∈ E, ∃ bs, e = encodeToMemory certType bs ∧ ∀ c ∈ bs, c < 256) →
    collectCertBlocks (List.intercalate [10] E) = some E ∧
    collectCertBlocks (10 :: List.intercalate [10] E) = some E := by
  intro E
  induction E with
  | nil =>
    intro _
    constructor
    · rfl
    · rfl
  | cons e E' ih =>
    intro hE
    obtain ⟨bs, he, hbs⟩ := hE e (by simp)
    have hE' : ∀ x ∈ E', ∃ bs2, x = encodeToMemory certType bs2 ∧ ∀ c ∈ bs2, c < 256 :=
      fun x hx => hE x (by simp [hx])
    obtain ⟨ih1, ih2⟩ := ih hE'
    cases E' with
    | nil =>
      have hI : List.intercalate [10] [e] = e := by simp [List.intercalate]
      have hdec : pemDecode (encodeToMemory certType bs) =
          some ({ type := certType, headers := [], bytes := bs }, []) := by
        have h0 := pemDecode_encTM bs [] hbs
        rwa [List.append_nil] at h0
      have hdec10 : pemDecode (10 :: encodeToMemory certType bs) =
          some ({ type := certType, headers := [], bytes := bs }, []) := by
        have h0 := pemDecode_encTM10 bs [] hbs
        rwa [List.append_nil] at h0
      constructor
      · rw [hI, he, collectCertBlocks_eq, hdec]
        dsimp only
        rw [if_neg (fun hc => hc rfl)]
        rw [show collectCertBlocks [] = some [] from rfl]
      · rw [hI, he, collectCertBlocks_eq, hdec10]
        dsimp only
        rw [if_neg (fun hc => hc rfl)]
        rw [show collectCertBlocks [] = some [] from rfl]
    | cons f E'' =>
      have hI : List.intercalate [10] (e :: f :: E'') =
          e ++ 10 :: List.intercalate [10] (f :: E'') := by
        simp [List.intercalate, List.intersperse]
      constructor
      · rw [hI, he, collectCertBlocks_eq, pemDecode_encTM bs _ hbs]
        dsimp only
        rw [if_neg (fun hc => hc rfl)]
        rw [ih2]
      · rw [hI, he, collectCertBlocks_eq, pemDecode_encTM10 bs _ hbs]
        dsimp only
        rw [if_neg (fun hc => hc rfl)]
        rw [ih2]

/-- Auxiliary, by strong induction on a length bound: every block the
collect loop returns is a canonical certificate encoding of DER bytes
below 256. -/
theorem collectCertBlocks_shapeAux : ∀ (n : Nat) (x : List Nat)
    (blocks : List (List Nat)), x.length ≤ n →
    collectCertBlocks x = some blocks →
    ∀ e ∈ blocks, ∃ bs, e = encodeToMemory certType bs ∧ ∀ c ∈ bs, c < 256 := by
  intro n
  induction n with
  | zero =>
    intro x blocks hlen h e he
    have hx : x = [] := List.length_eq_zero.mp (Nat.le_zero.mp hlen)
    subst hx
    rw [show collectCertBlocks [] = some [] from rfl] at h
    simp only [Option.some.injEq] at h
    subst h
    simp at he
  | succ n ihn =>
    intro x blocks hlen h e he
    rw [collectCertBlocks_eq] at h
    cases hd : pemDecode x with
    | none =>
      rw [hd] at h
      simp only [Option.some.injEq] at h
      subst h
      simp at he
    | some br =>
      rw [hd] at h
      dsimp only at h
      split at h
      · exact absurd h (by simp)
      · split at h
        · exact absurd h (by simp)
        · rename_i tail htail
          simp only [Option.some.injEq] at h
          subst h
          have hd2 : pemDecode x = some (br.1, br.2) := by rw [hd]
          rcases List.mem_cons.mp he with he1 | he2
          · exact ⟨br.1.bytes, he1, pemDecode_bytes_lt hd2⟩
          · have hlt : br.2.length < x.length := pemDecode_rest_lt hd2
            exact ihn br.2 tail (by omega) htail e he2

/-- Every block returned by the collect loop is a canonical certificate
encoding of DER bytes below 256. -/
theorem collectCertBlocks_shape {x : List Nat} {blocks : List (List Nat)}
    (h : collectCertBlocks x = some blocks) :
    ∀ e ∈ blocks, ∃ bs, e = encodeToMemory certType bs ∧ ∀ c ∈ bs, c < 256 :=
  collectCertBlocks_shapeAux x.length x blocks (le_refl _) h

/-- C6: for every input on which `normalizePEMTrustAnchors` succeeds,
running the normalizer on its own output returns that output unchanged:
the normal form (canonical re-encodings, deduplicated, byte-sorted,
LF-joined) is a fixed point of the normalizer. -/
theorem normalizePEMTrustAnchors_idempotent (x y : List Nat)
    (h : normalizePEMTrustAnchors x = some y) :
    normalizePEMTrustAnchors y = some y := by
  unfold normalizePEMTrustAnchors at h
  cases hc : collectCertBlocks x with
  | none =>
    rw [hc] at h
    exact absurd h (by simp)
  | some blocks =>
    rw [hc] at h
    simp only [Option.some.injEq] at h
    subst h
    have hEshape : ∀ e ∈ sortLe blocks.dedup,
        ∃ bs, e = encodeToMemory certType bs ∧ ∀ c ∈ bs, c < 256 := by
      intro e hme
      exact collectCertBlocks_shape hc e
        (List.mem_dedup.mp ((sortLe_perm blocks.dedup).mem_iff.mp hme))
    have hcoll := (collectCertBlocks_canonical (sortLe blocks.dedup) hEshape).1
    unfold normalizePEMTrustAnchors
    rw [hcoll]
    dsimp only
    have hnd : (sortLe blocks.dedup).Nodup :=
      ((sortLe_perm blocks.dedup).nodup_iff).mpr (List.nodup_dedup blocks)
    rw [List.dedup_eq_self.mpr hnd]
    rw [sortLe_eq_self (sortLe_sorted blocks.dedup)]

set_option maxRecDepth 100000 in
set_option maxHeartbeats 1000000 in
/-- Concrete run of the idempotence theorem: an input with leading
garbage and a duplicated certificate block normalizes to the single
canonical block, and the normalizer fixes that output. -/
theorem normalizePEMTrustAnchors_idempotent_witness :
    normalizePEMTrustAnchors (asciiStr "garbage" ++ 10 ::
        (encodeToMemory certType [1, 2, 3] ++ 10 ::
          encodeToMemory certType [1, 2, 3])) =
      some (encodeToMemory certType [1, 2, 3]) ∧
    normalizePEMTrustAnchors (encodeToMemory certType [1, 2, 3]) =
      some (encodeToMemory certType [1, 2, 3]) :=
  ⟨by decide, normalizePEMTrustAnchors_idempotent
    (asciiStr "garbage" ++ 10 ::
      (encodeToMemory certType [1, 2, 3] ++ 10 ::
        encodeToMemory certType [1, 2, 3]))
    (encodeToMemory certType [1, 2, 3]) (by decide)⟩
